import Mathlib

/-!
Shallow embedding of the MicroRL interactive line editor (src/src/microrl.c,
version 1.7.0-dev) with the default configuration of src/src/microrl_config.h:

* `MICRORL_CFG_CMDLINE_LEN`      = 61   (`_COMMAND_LINE_LEN`, 1 + 60)
* `MICRORL_CFG_CMD_TOKEN_NMB`    = 8
* `MICRORL_CFG_QUOTED_TOKEN_NMB` = 2
* `MICRORL_CFG_RING_HISTORY_LEN` = 64
* `MICRORL_CFG_END_LINE`         = "\n"
* all feature toggles (`_USE_COMPLETE`, `_USE_QUOTING`, `_USE_HISTORY`,
  `_USE_ESC_SEQ`, `_USE_CTRL_C`, `_USE_CARRIAGE_RETURN`,
  `_ENABLE_INIT_PROMPT`) enabled.

Buffers are embedded as total functions from indices to byte values
(`Int → Nat` for `cmdline`, whose C code manipulates pointers and indices as
`int`; `Nat → Nat` for the history ring, whose indices are kept in `[0, 64)` by
explicit wrap-around subtraction in the C code).  C `int` quantities that the
code can drive below zero (`cursor`, `cmdlen`, `start_password`, history
restore return values) are embedded as `Int`.  `while` loops are embedded as
fuel recursion with fuel chosen at each call site to dominate the loop bound of
the C code; the relevant theorems establish on the way that the fuel is never
exhausted on the states they quantify over.

Terminal output and callback activity are recorded as an event trace (`Ev`).
The byte-exact chunking that `terminal_print_line` performs through its
40-byte stack buffer is collapsed into a single print event carrying the
rendered text; no claim below inspects repaint chunking.
-/

/-- `MICRORL_CFG_CMDLINE_LEN` (1 + 60). -/
def CMDLINE_LEN : Nat := 61

/-- `MICRORL_CFG_CMD_TOKEN_NMB`. -/
def CMD_TOKEN_NMB : Nat := 8

/-- `MICRORL_CFG_QUOTED_TOKEN_NMB`. -/
def QUOTED_TOKEN_NMB : Nat := 2

/-- `MICRORL_CFG_RING_HISTORY_LEN`. -/
def RING_HISTORY_LEN : Nat := 64

/-- `MICRORL_CFG_END_LINE`. -/
def ENDL : String := "\n"

/-- `MICRORL_CFG_PROMPT_STRING` (the green default prompt). -/
def PROMPT_STRING : String := "\x1b[32mIRin >\x1b[0m "

/-- `MICRORL_CFG_PROMPT_LEN`. -/
def PROMPT_LEN : Nat := 7

/-- Write one byte into an `Int`-indexed buffer. -/
def bwriteI (b : Int → Nat) (i : Int) (v : Nat) : Int → Nat :=
  fun j => if j = i then v else b j

/-- Write one byte into a `Nat`-indexed buffer. -/
def bwriteN (b : Nat → Nat) (i : Nat) (v : Nat) : Nat → Nat :=
  fun j => if j = i then v else b j

/-- `memmove(buf + dst, buf + src, n)` on an `Int`-indexed buffer: every
position in `[dst, dst + n)` receives the old byte at the corresponding
source position; `memmove` copies as if through a temporary, which is exactly
this functional update.  A non-positive `n` moves nothing. -/
def memmoveI (b : Int → Nat) (dst src n : Int) : Int → Nat :=
  fun j => if dst ≤ j ∧ j < dst + n then b (src + (j - dst)) else b j

/-- `memcpy(buf + dst, src, src.length)` of a byte list into a `Nat`-indexed
buffer (used for the history ring, where the C code splits wrapped copies into
two explicit `memcpy` calls). -/
def memcpyN (b : Nat → Nat) (dst : Nat) (src : List Nat) : Nat → Nat :=
  fun j => if dst ≤ j ∧ j < dst + src.length then src.getD (j - dst) 0 else b j

/-- The C wrap idiom `if (x >= RING_HISTORY_LEN) x -= RING_HISTORY_LEN`. -/
def wrapHist (x : Nat) : Nat :=
  if x ≥ RING_HISTORY_LEN then x - RING_HISTORY_LEN else x

/-- `microrl_hist_dir_t`. -/
inductive HistDir where
  | up
  | down
deriving DecidableEq

/-- `microrl_hist_rbuf_t` / `ring_history_t`: byte ring with head `begin`,
tail `end` (an identifier Lean reserves, hence `end_`) and navigation cursor
`cur`. -/
structure RingHist where
  buf : Nat → Nat
  begin : Nat
  end_ : Nat
  cur : Int

/-- `hist_erase_older`: advance `begin` past the oldest record. -/
def hist_erase_older (r : RingHist) : RingHist :=
  { r with begin := wrapHist (r.begin + r.buf r.begin + 1) }

/-- `hist_is_space_for_new`, returned as `true` for `MICRORL_HIST_NOT_FULL`.
The arithmetic is C `int` arithmetic, hence computed in `Int`. -/
def hist_is_space_for_new (r : RingHist) (len : Nat) : Bool :=
  if r.buf r.begin = 0 then true
  else if r.end_ ≥ r.begin then
    decide ((RING_HISTORY_LEN : Int) - r.end_ + r.begin - 1 > len)
  else
    decide ((r.begin : Int) - r.end_ - 1 > len)

/-- The `while (hist_is_space_for_new(..) == MICRORL_HIST_FULL)
hist_erase_older(..);` loop of `hist_save_line`, as fuel recursion.  In every
well-formed ring state the loop erases at most one record per entry stored, so
the fuel `RING_HISTORY_LEN` passed at the call site is never exhausted. -/
def hist_evict : Nat → RingHist → Nat → RingHist
  | 0, r, _ => r
  | fuel + 1, r, len =>
      if hist_is_space_for_new r len then r
      else hist_evict fuel (hist_erase_older r) len

/-- `hist_save_line`: store `line` (its length is the C `len` argument) in the
ring.  Rejects lines longer than `RING_HISTORY_LEN - 2`; erases older records
until the new one fits; writes the length byte at the old `end`, the payload
at `end + 1 ..` (wrapping through the two-`memcpy` split of the C code),
advances `end` past the record and re-establishes the 0 sentinel there. -/
def hist_save_line (r : RingHist) (line : List Nat) : RingHist :=
  let len := line.length
  if len > RING_HISTORY_LEN - 2 then r
  else
    let r := hist_evict RING_HISTORY_LEN r len
    let buf := if r.buf r.begin = 0 then bwriteN r.buf r.begin len else r.buf
    let buf :=
      if (len : Int) < (RING_HISTORY_LEN : Int) - r.end_ - 1 then
        memcpyN buf (r.end_ + 1) line
      else
        let part := RING_HISTORY_LEN - r.end_ - 1
        memcpyN (memcpyN buf (r.end_ + 1) (line.take part)) 0 (line.drop part)
    let buf := bwriteN buf r.end_ len
    let e := wrapHist (r.end_ + len + 1)
    { buf := bwriteN buf e 0, begin := r.begin, end_ := e, cur := 0 }

/-- The record-counting walk at the top of `hist_restore_line`:
`while (ring_buf[header] != 0) header += ring_buf[header] + 1 (wrapped)`. -/
def hist_count : Nat → (Nat → Nat) → Nat → Nat
  | 0, _, _ => 0
  | fuel + 1, buf, header =>
      if buf header = 0 then 0
      else hist_count fuel buf (wrapHist (header + buf header + 1)) + 1

/-- The record-seeking walk of `hist_restore_line`:
`while (ring_buf[header] != 0 && stop ≠ cur) { advance; j++ }`, where the stop
index is `cnt - j - 1` for direction UP and `cnt - j` for DOWN; the `bias`
argument is 1 for UP and 0 for DOWN.  All loop counters are C `int`s. -/
def hist_seek : Nat → (Nat → Nat) → Nat → Int → Int → Int → Int → Nat
  | 0, _, header, _, _, _, _ => header
  | fuel + 1, buf, header, cnt, j, cur, bias =>
      if buf header ≠ 0 ∧ cnt - j - bias ≠ cur then
        hist_seek fuel buf (wrapHist (header + buf header + 1)) cnt (j + 1) cur bias
      else header

/-- The wrap-aware payload copy of `hist_restore_line`: copy
`buf[header]`-many payload bytes starting at ring position `header + 1` into
the `Int`-indexed output buffer at positions `0 ..`, splitting at the ring
boundary exactly as the two-`memcpy` branches of the C code do. -/
def hist_copy_out (buf : Nat → Nat) (header : Nat) (line : Int → Nat) : Int → Nat :=
  let len := buf header
  if len + header < RING_HISTORY_LEN then
    fun i => if 0 ≤ i ∧ i < (len : Int) then buf (header + 1 + i.toNat) else line i
  else
    let part0 := RING_HISTORY_LEN - header - 1
    fun i =>
      if 0 ≤ i ∧ i < (part0 : Int) then buf (header + 1 + i.toNat)
      else if (part0 : Int) ≤ i ∧ i < (len : Int) then buf (i.toNat - part0)
      else line i

/-- `hist_restore_line`: returns the ring (with updated `cur`), the output
buffer and the C return value (`-1` when there is no record to restore). -/
def hist_restore_line (r : RingHist) (line : Int → Nat) (dir : HistDir) :
    RingHist × (Int → Nat) × Int :=
  let cnt : Int := hist_count RING_HISTORY_LEN r.buf r.begin
  match dir with
  | .up =>
      if cnt ≥ r.cur then
        let header := hist_seek RING_HISTORY_LEN r.buf r.begin cnt 0 r.cur 1
        if r.buf header ≠ 0 then
          let line := fun i => if 0 ≤ i ∧ i < (CMDLINE_LEN : Int) then 0 else line i
          ({ r with cur := r.cur + 1 }, hist_copy_out r.buf header line, r.buf header)
        else (r, line, -1)
      else (r, line, -1)
  | .down =>
      if r.cur > 0 then
        let r := { r with cur := r.cur - 1 }
        let header := hist_seek RING_HISTORY_LEN r.buf r.begin cnt 0 r.cur 0
        (r, hist_copy_out r.buf header line, r.buf header)
      else (r, line, 0)

/-- `quoted_token_t`: the two `char*` pointers are embedded as optional
`cmdline` indices; `none` is the C null pointer. -/
structure QuoteRec where
  begin : Option Int
  end_ : Option Int
deriving DecidableEq

/-- The `quotes[MICRORL_CFG_QUOTED_TOKEN_NMB]` array (the default
`_QUOTED_TOKEN_NMB` is 2, so the array is two records). -/
structure Quotes where
  q0 : QuoteRec
  q1 : QuoteRec
deriving DecidableEq

/-- The cleared quotes array (both pointers null). -/
def quotesClear : Quotes := ⟨⟨none, none⟩, ⟨none, none⟩⟩

/-- `quotes[iq].begin = cmdline + b` (no write happens for `iq ≥ 2`; the C
code guards `iq` before every such store). -/
def setQBegin (qs : Quotes) (iq : Nat) (b : Int) : Quotes :=
  if iq = 0 then { qs with q0 := { qs.q0 with begin := some b } }
  else if iq = 1 then { qs with q1 := { qs.q1 with begin := some b } }
  else qs

/-- `quotes[iq].end = cmdline + e`. -/
def setQEnd (qs : Quotes) (iq : Nat) (e : Int) : Quotes :=
  if iq = 0 then { qs with q0 := { qs.q0 with end_ := some e } }
  else if iq = 1 then { qs with q1 := { qs.q1 with end_ := some e } }
  else qs

/-- `restore`: walk the quote records in order, stop at the first null `end`
pointer, write the byte at `begin` over the byte at `end` and null both
pointers.  The loop over `iq < MICRORL_CFG_QUOTED_TOKEN_NMB` is unrolled for
the two records of the default configuration. -/
def restore (buf : Int → Nat) (qs : Quotes) : (Int → Nat) × Quotes :=
  match qs.q0.end_ with
  | none => (buf, qs)
  | some e0 =>
      let buf := bwriteI buf e0 (buf (qs.q0.begin.getD 0))
      match qs.q1.end_ with
      | none => (buf, { q0 := ⟨none, none⟩, q1 := qs.q1 })
      | some e1 =>
          let buf := bwriteI buf e1 (buf (qs.q1.begin.getD 0))
          (buf, ⟨⟨none, none⟩, ⟨none, none⟩⟩)

/-- The `while ((cmdline[ind] == '\0') && (ind < limit)) ind++;` scan at the
top of each `split` iteration. -/
def skip_zeros : Nat → (Int → Nat) → Int → Int → Int
  | 0, _, ind, _ => ind
  | fuel + 1, buf, ind, limit =>
      if buf ind = 0 ∧ ind < limit then skip_zeros fuel buf (ind + 1) limit else ind

/-- State carried out of the token-scanning inner loop of `split`. -/
structure ScanSt where
  buf : Int → Nat
  qs : Quotes
  ind : Int
  iq : Nat
  quote : Nat
  failed : Bool

/-- The inner `while (ind < limit)` loop of `split`: scan one token.  A zero
byte ends the token when unquoted and is rewritten to a space (0x20) inside a
quoted span; the closing quote character must be followed by a zero byte
(else `restore` + failure), is recorded in `quotes[iq].end` and overwritten
with zero. -/
def split_token_scan : Nat → (Int → Nat) → Quotes → Int → Int → Nat → Nat → ScanSt
  | 0, buf, qs, _, ind, iq, quote => ⟨buf, qs, ind, iq, quote, false⟩
  | fuel + 1, buf, qs, limit, ind, iq, quote =>
      if ind < limit then
        if buf ind = 0 then
          if quote = 0 then ⟨buf, qs, ind, iq, quote, false⟩
          else split_token_scan fuel (bwriteI buf ind 32) qs limit (ind + 1) iq quote
        else if buf ind = quote then
          if buf (ind + 1) ≠ 0 then
            let p := restore buf qs
            ⟨p.1, p.2, ind, iq, quote, true⟩
          else ⟨bwriteI buf ind 0, setQEnd qs iq ind, ind + 1, iq + 1, 0, false⟩
        else split_token_scan fuel buf qs limit (ind + 1) iq quote
      else ⟨buf, qs, ind, iq, quote, false⟩

/-- Result of `split`: the mutated `cmdline`, the mutated quote records, the
C return value (token count, or `-1` on failure) and the recorded token start
indices (`tkn_arr`). -/
structure SplitRes where
  buf : Int → Nat
  qs : Quotes
  status : Int
  tkn : List Int

/-- The outer `while (1)` loop of `split`.  Each iteration skips separator
zeros, possibly opens a quoted token (failing when both quote records are in
use), records the token start (failing when the token array is full), then
scans the token with `split_token_scan`. -/
def split_loop : Nat → (Int → Nat) → Quotes → Int → Int → Int → Nat → Nat → List Int → SplitRes
  | 0, buf, qs, _, _, i, _, _, tkn => ⟨buf, qs, i, tkn⟩
  | fuel + 1, buf, qs, limit, ind, i, iq, quote, tkn =>
      let ind := skip_zeros (limit.toNat + 1) buf ind limit
      if ¬ ind < limit then ⟨buf, qs, i, tkn⟩
      else if (buf ind = 39 ∨ buf ind = 34) ∧ iq ≥ QUOTED_TOKEN_NMB then
        let p := restore buf qs
        ⟨p.1, p.2, -1, tkn⟩
      else
        let isQ := buf ind = 39 ∨ buf ind = 34
        let quote := if isQ then buf ind else quote
        let qs := if isQ then setQBegin qs iq ind else qs
        let ind := if isQ then ind + 1 else ind
        let tkn := tkn ++ [ind]
        let i := i + 1
        if i ≥ (CMD_TOKEN_NMB : Int) then
          let p := restore buf qs
          ⟨p.1, p.2, -1, tkn⟩
        else
          let st := split_token_scan (limit.toNat + 1) buf qs limit ind iq quote
          if st.failed then ⟨st.buf, st.qs, -1, tkn⟩
          else if ¬ st.ind < limit then
            if st.quote ≠ 0 then
              let p := restore st.buf st.qs
              ⟨p.1, p.2, -1, tkn⟩
            else ⟨st.buf, st.qs, i, tkn⟩
          else split_loop fuel st.buf st.qs limit st.ind i st.iq st.quote tkn

/-- `split`: tokenize `cmdline[0..limit)` in place.  The C function first
clears the quote records of the instance, so the standalone embedding starts
from `quotesClear`; the editor-level callers store the returned buffer and
quote records back into the instance.  The fuel `limit.toNat + 1` dominates
the outer loop's iteration count because every iteration consumes at least
one position of `[0, limit)`. -/
def split (buf : Int → Nat) (limit : Int) : SplitRes :=
  split_loop (limit.toNat + 1) buf quotesClear limit 0 0 0 0 []

/-- `microrlr_t` result codes (only `microrlOK` / `microrlERR` are produced
by the embedded operations). -/
inductive Microrlr where
  | ok
  | err
deriving DecidableEq

/-- `echo_t`. -/
inductive Echo where
  | once
  | on
  | off
deriving DecidableEq

/-- Observable activity of a call: bytes handed to the `print` callback,
entry into `new_line_handler`, an `execute` callback invocation (recorded
with its `argc`), a `sigint` callback invocation. -/
inductive Ev where
  | print : String → Ev
  | nlh : Ev
  | exec : Nat → Ev
  | sigint : Ev
deriving DecidableEq

/-- `"\033[K"` (erase to end of line). -/
def escK : String := "\x1b[K"

/-- The `terminal_backspace` payload `"\033[D \033[D"`. -/
def escBS : String := "\x1b[D \x1b[D"

/-- `"ERROR:too many tokens or invalid quoting"` (the
`MICRORL_CFG_USE_QUOTING` variant compiled by the default config). -/
def ERR_TOKENS : String := "ERROR:too many tokens or invalid quoting"

/-- Render a byte list as the string handed to the `print` callback. -/
def strOfBytes (l : List Nat) : String :=
  String.mk (l.map Char.ofNat)

/-- `microrl_t`: the editor instance.  Callback pointers are embedded as
presence flags (`execute`, `sigint`) or as an optional Lean function
(`get_completion`, which maps the token strings to the candidate strings of
the null-terminated `char**` the C callback returns).  The `print` callback
is always present; its activity is the event trace. -/
structure Microrl where
  escape_seq : Nat
  escape : Nat
  last_endl : Nat
  ring_hist : RingHist
  prompt_str : String
  cmdline : Int → Nat
  cmdlen : Int
  cursor : Int
  quotes : Quotes
  execute : Bool
  get_completion : Option (List (List Nat) → List (List Nat))
  sigint : Bool
  echo : Echo
  start_password : Int

/-- `microrl_init`: the zeroed instance with default prompt, echo ON and
`start_password = -1` (the init-time prompt print is not part of any claim
and is omitted from the traces below, which all start after init). -/
def microrl_init : Microrl where
  escape_seq := 0
  escape := 0
  last_endl := 0
  ring_hist := { buf := fun _ => 0, begin := 0, end_ := 0, cur := 0 }
  prompt_str := PROMPT_STRING
  cmdline := fun _ => 0
  cmdlen := 0
  cursor := 0
  quotes := quotesClear
  execute := false
  get_completion := none
  sigint := false
  echo := .on
  start_password := -1

/-- The store loop of `microrl_insert_text`: write each byte of `text` at
consecutive positions from `pos`, storing a space (0x20) as 0x00. -/
def storeSubst (buf : Int → Nat) (pos : Int) : List Nat → (Int → Nat)
  | [] => buf
  | c :: rest => storeSubst (bwriteI buf pos (if c = 32 then 0 else c)) (pos + 1) rest

/-- `microrl_insert_text`: insert `text` (its length is the C `len`) at the
cursor.  Succeeds iff `cmdlen + len < MICRORL_CFG_CMDLINE_LEN`; on success
marks `start_password` under fresh ONCE echo, shifts the tail right, stores
the bytes with the space→0 substitution, advances `cursor` and `cmdlen` and
re-terminates; on failure returns `microrlERR` leaving the instance alone. -/
def microrl_insert_text (mrl : Microrl) (text : List Nat) : Microrlr × Microrl :=
  let len : Int := text.length
  if mrl.cmdlen + len < (CMDLINE_LEN : Int) then
    let mrl :=
      if mrl.echo = .once ∧ mrl.start_password = -1 then
        { mrl with start_password := mrl.cmdlen }
      else mrl
    let buf := memmoveI mrl.cmdline (mrl.cursor + len) mrl.cursor (mrl.cmdlen - mrl.cursor)
    let buf := storeSubst buf mrl.cursor text
    let cmdlen := mrl.cmdlen + len
    (.ok, { mrl with cmdline := bwriteI buf cmdlen 0, cursor := mrl.cursor + len, cmdlen := cmdlen })
  else (.err, mrl)

/-- `microrl_backspace`: remove `len` bytes left of the cursor (no-op when
`cursor < len`).  The C writes the terminator at the old `cmdlen` before
decrementing it. -/
def microrl_backspace (mrl : Microrl) (len : Int) : Microrl :=
  if mrl.cursor ≥ len then
    let buf := memmoveI mrl.cmdline (mrl.cursor - len) mrl.cursor (mrl.cmdlen - mrl.cursor + len)
    { mrl with cmdline := bwriteI buf mrl.cmdlen 0, cursor := mrl.cursor - len,
               cmdlen := mrl.cmdlen - len }
  else mrl

/-- `microrl_delete`: remove one byte forward at the cursor.  The C guard is
`cmdlen > 0` only — the cursor position is not compared with `cmdlen`. -/
def microrl_delete (mrl : Microrl) : Microrl :=
  if mrl.cmdlen > 0 then
    let buf := memmoveI mrl.cmdline mrl.cursor (mrl.cursor + 1) (mrl.cmdlen - mrl.cursor + 1)
    { mrl with cmdline := bwriteI buf mrl.cmdlen 0, cmdlen := mrl.cmdlen - 1 }
  else mrl

/-- `generate_move_cursor`: `ESC [ n C` (right) or `ESC [ n D` (left), `n`
clamped to 999; the empty string for offset 0. -/
def generate_move_cursor (offset : Int) : String :=
  let offset := if offset > 999 then 999 else if offset < -999 then -999 else offset
  if offset = 0 then ""
  else if offset < 0 then "\x1b[" ++ toString (-offset) ++ "D"
  else "\x1b[" ++ toString offset ++ "C"

/-- `terminal_move_cursor`: print the move sequence unless the offset is 0. -/
def terminal_move_cursor (offset : Int) : List Ev :=
  if offset ≠ 0 then [Ev.print (generate_move_cursor offset)] else []

/-- `terminal_print_line`: re-render `cmdline[pos..cmdlen)` with 0x00 shown
as a space, then `ESC[K` and the cursor reposition; with `reset` the cursor
is first parked via `'\r'` plus a right move (`MICRORL_CFG_USE_CARRIAGE_RETURN`
is enabled).  Nothing is printed when echo is OFF.  The chunked flushing
through the 40-byte stack buffer is collapsed into one print event. -/
def terminal_print_line (mrl : Microrl) (pos : Int) (reset : Bool) : List Ev :=
  if mrl.echo = .off then []
  else
    let head := if reset then "\r" ++ generate_move_cursor ((PROMPT_LEN : Int) + pos) else ""
    let text := strOfBytes ((List.range (mrl.cmdlen - pos).toNat).map
      (fun k => let b := mrl.cmdline (pos + (k : Int)); if b = 0 then 32 else b))
    [Ev.print (head ++ text ++ escK ++ generate_move_cursor (mrl.cursor - mrl.cmdlen))]

/-- `hist_search`: restore a history record into `cmdline`; on a
non-negative length terminate the line, move cursor and `cmdlen` to it and
repaint from column 0. -/
def hist_search (mrl : Microrl) (dir : HistDir) : Microrl × List Ev :=
  let res := hist_restore_line mrl.ring_hist mrl.cmdline dir
  let len := res.2.2
  let mrl := { mrl with ring_hist := res.1, cmdline := res.2.1 }
  if len ≥ 0 then
    let mrl := { mrl with cmdline := bwriteI mrl.cmdline len 0, cursor := len, cmdlen := len }
    (mrl, terminal_print_line mrl 0 true)
  else (mrl, [])

/-- `escape_process`: the ESC sub-machine.  Returns the new state, the
events and the C return value (`true` = sequence finished).  A `'['` byte
(re-)enters the BRACKET state from any sub-state — this branch is tested
before the sub-state dispatch. -/
def escape_process (mrl : Microrl) (ch : Nat) : Microrl × List Ev × Bool :=
  if ch = 91 then ({ mrl with escape_seq := 1 }, [], false)
  else if mrl.escape_seq = 1 then
    if ch = 65 then
      if mrl.echo = .on then
        let p := hist_search mrl .up
        (p.1, p.2, true)
      else (mrl, [], true)
    else if ch = 66 then
      if mrl.echo = .on then
        let p := hist_search mrl .down
        (p.1, p.2, true)
      else (mrl, [], true)
    else if ch = 67 then
      if mrl.cursor < mrl.cmdlen then
        ({ mrl with cursor := mrl.cursor + 1 }, terminal_move_cursor 1, true)
      else (mrl, [], true)
    else if ch = 68 then
      if mrl.cursor > 0 then
        ({ mrl with cursor := mrl.cursor - 1 }, terminal_move_cursor (-1), true)
      else (mrl, [], true)
    else if ch = 55 then ({ mrl with escape_seq := 2 }, [], false)
    else if ch = 56 then ({ mrl with escape_seq := 3 }, [], false)
    else (mrl, [], true)
  else if ch = 126 then
    if mrl.escape_seq = 2 then
      ({ mrl with cursor := 0 }, terminal_move_cursor (-mrl.cursor), true)
    else if mrl.escape_seq = 3 then
      ({ mrl with cursor := mrl.cmdlen }, terminal_move_cursor (mrl.cmdlen - mrl.cursor), true)
    else (mrl, [], true)
  else (mrl, [], true)

/-- Read the C string starting at `p` in `buf` (bytes up to the first 0). -/
def cstr : Nat → (Int → Nat) → Int → List Nat
  | 0, _, _ => []
  | fuel + 1, buf, p => if buf p = 0 then [] else buf p :: cstr fuel buf (p + 1)

/-- `common_len`: length of the longest common prefix of the candidate
strings — the C picks the first shortest string, then returns the first
column where some candidate disagrees with it (or its full length). -/
def common_len (arr : List (List Nat)) : Nat :=
  let shortest := arr.foldl (fun acc s => if s.length < acc.length then s else acc) (arr.headD [])
  let bad := (List.range shortest.length).filter
    (fun i => arr.any (fun s => s.getD i 0 ≠ shortest.getD i 0))
  match bad with
  | [] => shortest.length
  | i :: _ => i

/-- Bounds-checked `cmdline` read: `none` models an out-of-bounds access,
which in the C is a read outside the `cmdline[MICRORL_CFG_CMDLINE_LEN]`
array. -/
def readChk (buf : Int → Nat) (i : Int) : Option Nat :=
  if 0 ≤ i ∧ i < (CMDLINE_LEN : Int) then some (buf i) else none

/-- The byte list `cmdline[0..cmdlen)`. -/
def cmdlineBytes (mrl : Microrl) : List Nat :=
  (List.range mrl.cmdlen.toNat).map (fun k => mrl.cmdline (k : Int))

/-- `microrl_get_complite`: the completion coordinator.  Splits
`cmdline[0..cursor)`, appends an empty token when the byte left of the
cursor is 0 — the C reads `cmdline[cursor - 1]` without any bounds check,
which `readChk` surfaces as `none` (undefined behaviour) when `cursor = 0` —
then calls the callback, restores the quote marks and applies the candidate
set.  Insertion lengths that the C would take negative (candidates shorter
than the current token, undefined behaviour via a negative `int` length
passed to a `size_t` loop) are clamped by `List.take`; no claim exercises
that corner. -/
def microrl_get_complite (mrl : Microrl) : Option (Microrl × List Ev) :=
  match mrl.get_completion with
  | none => some (mrl, [])
  | some cb =>
      let res := split mrl.cmdline mrl.cursor
      let mrl := { mrl with cmdline := res.buf, quotes := res.qs }
      if res.status < 0 then some (mrl, [])
      else
        match readChk mrl.cmdline (mrl.cursor - 1) with
        | none => none
        | some b =>
            let tknStrs := res.tkn.map (cstr (CMDLINE_LEN + 1) mrl.cmdline)
            let tknStrs := if b = 0 then tknStrs ++ [[]] else tknStrs
            let cands := cb tknStrs
            let p := restore mrl.cmdline mrl.quotes
            let mrl := { mrl with cmdline := p.1, quotes := p.2 }
            match cands with
            | [] => some (mrl, [])
            | c0 :: rest =>
                let lastLen := (tknStrs.getLastD []).length
                let pos : Int := mrl.cursor
                if rest.isEmpty then
                  let len : Int := c0.length
                  let mrl :=
                    if len ≠ 0 then
                      let piece := (c0.drop lastLen).take (len - lastLen).toNat
                      let mrl := (microrl_insert_text mrl piece).2
                      (microrl_insert_text mrl [32]).2
                    else mrl
                  some (mrl, terminal_print_line mrl pos false)
                else
                  let len : Int := common_len cands
                  let evs := [Ev.print ENDL] ++
                    cands.map (fun c => Ev.print (strOfBytes c ++ " ")) ++
                    [Ev.print ENDL, Ev.print mrl.prompt_str]
                  let mrl :=
                    if len ≠ 0 then
                      let piece := (c0.drop lastLen).take (len - lastLen).toNat
                      (microrl_insert_text mrl piece).2
                    else mrl
                  some (mrl, evs ++ terminal_print_line mrl 0 false)

/-- `new_line_handler`: newline, history append (when the line is non-empty
and echo is ON), ONCE-echo reset, tokenize, error report or `execute`
dispatch, prompt reprint, and full line reset. -/
def new_line_handler (mrl : Microrl) : Microrl × List Ev :=
  let evs0 := [Ev.print ENDL]
  let mrl :=
    if mrl.cmdlen > 0 ∧ mrl.echo = .on then
      { mrl with ring_hist := hist_save_line mrl.ring_hist (cmdlineBytes mrl) }
    else mrl
  let mrl := if mrl.echo = .once then { mrl with echo := .on, start_password := -1 } else mrl
  let res := split mrl.cmdline mrl.cmdlen
  let mrl := { mrl with cmdline := res.buf, quotes := res.qs }
  let evs1 := if res.status = -1 then [Ev.print ERR_TOKENS, Ev.print ENDL] else []
  let evs2 := if res.status > 0 ∧ mrl.execute then [Ev.exec res.status.toNat] else []
  let evs3 := [Ev.print mrl.prompt_str]
  let mrl := { mrl with
    cmdlen := 0
    cursor := 0
    cmdline := fun j => if 0 ≤ j ∧ j < (CMDLINE_LEN : Int) then 0 else mrl.cmdline j
    ring_hist := { mrl.ring_hist with cur := 0 } }
  (mrl, evs0 ++ evs1 ++ evs2 ++ evs3)

/-- `microrl_insert_char`: the single-byte public entry point.  Returns
`none` exactly when the byte drives the C into undefined behaviour (the
unchecked `cmdline[cursor - 1]` read of the completion coordinator). -/
def microrl_insert_char (mrl : Microrl) (ch : Nat) : Option (Microrl × List Ev) :=
  if mrl.escape ≠ 0 then
    let p := escape_process mrl ch
    some (if p.2.2 then { p.1 with escape := 0 } else p.1, p.2.1)
  else if ch = 13 ∨ ch = 10 then
    if mrl.last_endl = (if ch = 13 then 10 else 13) then
      some ({ mrl with last_endl := 0 }, [])
    else
      let p := new_line_handler { mrl with last_endl := ch }
      some (p.1, Ev.nlh :: p.2)
  else
    let mrl := { mrl with last_endl := 0 }
    match ch with
    | 9 => microrl_get_complite mrl
    | 27 => some ({ mrl with escape := 1 }, [])
    | 21 =>
        let mrl := if mrl.cursor > 0 then microrl_backspace mrl mrl.cursor else mrl
        some (mrl, terminal_print_line mrl 0 true)
    | 11 => some ({ mrl with cmdlen := mrl.cursor }, [Ev.print escK])
    | 5 => some ({ mrl with cursor := mrl.cmdlen }, terminal_move_cursor (mrl.cmdlen - mrl.cursor))
    | 1 => some ({ mrl with cursor := 0 }, terminal_move_cursor (-mrl.cursor))
    | 6 =>
        if mrl.cursor < mrl.cmdlen then
          some ({ mrl with cursor := mrl.cursor + 1 }, terminal_move_cursor 1)
        else some (mrl, [])
    | 2 =>
        if mrl.cursor ≠ 0 then
          some ({ mrl with cursor := mrl.cursor - 1 }, terminal_move_cursor (-1))
        else some (mrl, [])
    | 16 => some (hist_search mrl .up)
    | 14 => some (hist_search mrl .down)
    | 127 =>
        if mrl.cursor > 0 then
          let mrl := microrl_backspace mrl 1
          if mrl.cursor = mrl.cmdlen then some (mrl, [Ev.print escBS])
          else some (mrl, terminal_print_line mrl mrl.cursor true)
        else some (mrl, [])
    | 8 =>
        if mrl.cursor > 0 then
          let mrl := microrl_backspace mrl 1
          if mrl.cursor = mrl.cmdlen then some (mrl, [Ev.print escBS])
          else some (mrl, terminal_print_line mrl mrl.cursor true)
        else some (mrl, [])
    | 4 =>
        let mrl := microrl_delete mrl
        some (mrl, terminal_print_line mrl mrl.cursor false)
    | 18 => some (mrl, [Ev.print ENDL, Ev.print mrl.prompt_str] ++ terminal_print_line mrl 0 false)
    | 3 => some (mrl, if mrl.sigint then [Ev.sigint] else [])
    | _ =>
        if (ch = 32 ∧ mrl.cmdlen = 0) ∨ ch ≤ 31 then some (mrl, [])
        else
          let r := microrl_insert_text mrl [ch]
          if r.1 = .ok then
            let mrl := r.2
            if mrl.cursor = mrl.cmdlen then
              let c := if mrl.cursor ≥ mrl.start_password ∧ mrl.echo = .once then 42 else ch
              some (mrl, [Ev.print (strOfBytes [c])])
            else some (mrl, terminal_print_line mrl (mrl.cursor - 1) false)
          else some (mrl, [])

/-- Feed a byte sequence through `microrl_insert_char`, discarding traces. -/
def runBytes (mrl : Microrl) : List Nat → Option Microrl
  | [] => some mrl
  | ch :: rest =>
      match microrl_insert_char mrl ch with
      | none => none
      | some p => runBytes p.1 rest

/-- Number of `new_line_handler` entries recorded in a trace. -/
def nlhCount (evs : List Ev) : Nat :=
  evs.countP (fun e => match e with | .nlh => true | _ => false)

/-- Number of `execute` callback invocations recorded in a trace. -/
def execCount (evs : List Ev) : Nat :=
  evs.countP (fun e => match e with | .exec _ => true | _ => false)

/-- `buf` agrees with `buf0` everywhere except that some original 0x00 bytes
may currently read 0x20 (the in-quote separator rewrite of `split`). -/
def Approx (buf0 buf : Int → Nat) : Prop :=
  ∀ j, buf j = buf0 j ∨ (buf0 j = 0 ∧ buf j = 32)

/-- A fully recorded quote pair: `begin` holds the untouched opening quote
byte, `end` holds the zero that `split` wrote over the closing quote, and the
original closing byte equals the original opening byte. -/
def CompleteShape (buf0 buf : Int → Nat) (r : QuoteRec) (lb ub : Int) : Prop :=
  ∃ b e, r.begin = some b ∧ r.end_ = some e ∧ lb ≤ b ∧ b < e ∧ e < ub ∧
    buf e = 0 ∧ buf b = buf0 b ∧ buf0 e = buf0 b

/-- A pending quote record: `begin` set at `b`, `end` still null, with the
active quote character `quote` stored (untouched) at `b`. -/
def PendAt (buf0 buf : Int → Nat) (r : QuoteRec) (quote : Nat) (b ub : Int) : Prop :=
  r.begin = some b ∧ r.end_ = none ∧ 0 ≤ b ∧ b < ub ∧
  buf b = buf0 b ∧ buf0 b = quote ∧ (quote = 39 ∨ quote = 34)

/-- `buf` agrees with `buf0` everywhere except for in-quote 0x00→0x20
rewrites and for positions currently recorded as a quote `end` (which hold
the 0 written over a closing quote until `restore` puts the quote back). -/
def ApproxQ (buf0 buf : Int → Nat) (qs : Quotes) : Prop :=
  ∀ j, buf j = buf0 j ∨ (buf0 j = 0 ∧ buf j = 32) ∨
    qs.q0.end_ = some j ∨ qs.q1.end_ = some j

/-- Loop invariant of `split` relating the working buffer and quote records
back to the original buffer `buf0`: the buffer differs from `buf0` only by
in-quote 0x00→0x20 rewrites and by the zeroed closing-quote positions
recorded in the quote records, which `restore` puts back. -/
def QInv (buf0 buf : Int → Nat) (qs : Quotes) (iq : Nat) (quote : Nat) (ind : Int) : Prop :=
  0 ≤ ind ∧
  ApproxQ buf0 buf qs ∧
  ((iq = 0 ∧ quote = 0 ∧ qs.q0.end_ = none ∧ qs.q1.end_ = none) ∨
   (iq = 0 ∧ (∃ b, PendAt buf0 buf qs.q0 quote b ind) ∧ qs.q1.end_ = none) ∨
   (iq = 1 ∧ quote = 0 ∧ CompleteShape buf0 buf qs.q0 0 ind ∧ qs.q1.end_ = none) ∨
   (iq = 1 ∧ (∃ b1, PendAt buf0 buf qs.q1 quote b1 ind ∧ CompleteShape buf0 buf qs.q0 0 b1)) ∨
   (iq = 2 ∧ quote = 0 ∧ (∃ m, CompleteShape buf0 buf qs.q0 0 m ∧ CompleteShape buf0 buf qs.q1 m ind)))

/-- Size in ring bytes of a list of history records (`len + 1` each: the
length byte plus the payload). -/
def entSize (es : List (List Nat)) : Nat :=
  (es.map (fun pl => pl.length + 1)).sum

/-- The records `es` are laid out consecutively in the ring starting at
absolute offset `p` (reads taken mod `RING_HISTORY_LEN`), each as a length
byte followed by its payload, with the 0 sentinel after the last record. -/
def layoutAt (buf : Nat → Nat) : Nat → List (List Nat) → Prop
  | p, [] => buf (p % RING_HISTORY_LEN) = 0
  | p, pl :: es =>
      buf (p % RING_HISTORY_LEN) = pl.length ∧ 1 ≤ pl.length ∧
      pl.length ≤ RING_HISTORY_LEN - 2 ∧
      (∀ k, k < pl.length → buf ((p + 1 + k) % RING_HISTORY_LEN) = pl.getD k 0) ∧
      layoutAt buf (p + pl.length + 1) es

/-- Well-formed ring state: `begin` in range, the records `es` laid out from
`begin`, `end` at the sentinel position after them, and the total record
size leaving at least the one free byte the C space accounting reserves. -/
def HistWF (r : RingHist) (es : List (List Nat)) : Prop :=
  r.begin < RING_HISTORY_LEN ∧
  r.end_ = (r.begin + entSize es) % RING_HISTORY_LEN ∧
  entSize es ≤ RING_HISTORY_LEN - 1 ∧
  layoutAt r.buf r.begin es

/-- The zeroed initial history ring. -/
def ringEmpty : RingHist where
  buf := fun _ => 0
  begin := 0
  end_ := 0
  cur := 0

/-- History ring states reachable through the editor: the zeroed ring,
followed by `hist_save_line` calls (the only caller, `new_line_handler`,
always passes `len = cmdlen ≥ 1`) and navigation-cursor updates (the only
ring field `hist_restore_line` mutates). -/
inductive HistReachable : RingHist → Prop where
  | init : HistReachable ringEmpty
  | save (r : RingHist) (line : List Nat) (h : HistReachable r) (hlen : 1 ≤ line.length) :
      HistReachable (hist_save_line r line)
  | setCur (r : RingHist) (c : Int) (h : HistReachable r) : HistReachable { r with cur := c }

/-- `new_line_handler` on the state reached by setting `last_endl := ch`
(the action of the CR/LF branch of `microrl_insert_char` when no coalescing
applies). -/
def newlineStep (mrl : Microrl) (ch : Nat) : Microrl × List Ev :=
  new_line_handler { mrl with last_endl := ch }

/-- The buffer `'a\0b'` + terminator: a quoted span whose interior holds an
0x00 separator byte (as typed input `'a b'` is stored, spaces becoming 0). -/
def ex3buf : Int → Nat := fun j =>
  if j = 0 then 39 else if j = 1 then 97 else if j = 2 then 0
  else if j = 3 then 98 else if j = 4 then 39 else 0

/-- Editor state holding the two bytes `'a` (an unterminated quote) as typed
input: `split` fails on it. -/
def c9state : Microrl :=
  { microrl_init with
    cmdline := fun j => if j = 0 then 39 else if j = 1 then 97 else 0
    cmdlen := 2
    cursor := 2
    execute := true }

/-- Editor state inside an escape sequence whose sub-state is END_PENDING. -/
def c8state : Microrl := { microrl_init with escape := 1, escape_seq := 3 }

/-- Freshly initialised editor with a completion callback registered (the
callback returns one candidate; its value is irrelevant to the claim). -/
def c10state : Microrl :=
  { microrl_init with get_completion := some (fun _ => [[104, 105]]) }

/-- The state after one `microrl_insert_char` byte (states are chained
through named constants so that concrete executions stay shallow; the
accompanying theorems assert that the dropped `Option` layer was `some`). -/
def stepChar (mrl : Microrl) (ch : Nat) : Microrl :=
  ((microrl_insert_char mrl ch).getD (mrl, [])).1

/-- State after typing `a` from init. -/
def c1s1 : Microrl := stepChar microrl_init 97

/-- State after typing `a` then `^D` (EOT, delete-forward at end of line). -/
def c1s2 : Microrl := stepChar c1s1 4

/-- State after typing `a b` from init. -/
def c2s2 : Microrl := stepChar (stepChar microrl_init 97) 98

/-- State after `a b ^B` (cursor left). -/
def c2s3 : Microrl := stepChar c2s2 2

/-- State after `a b ^B ^K` (kill to end of line). -/
def c2s4 : Microrl := stepChar c2s3 11

/-- C1, code bug: the spec invariant `0 ≤ cursor ≤ cmdlen < CMDLINE_CAP` is
broken by delete-forward at the end of a non-empty line.  From init, typing
`a` (0x61) reaches `cursor = cmdlen = 1`; the EOT byte (0x04) then runs
`microrl_delete`, whose guard checks only `cmdlen > 0`, so `cmdlen` drops to
0 while `cursor` stays 1: after the call `cursor ≤ cmdlen` fails. -/
theorem C1_eot_breaks_cursor_bound :
    (microrl_insert_char microrl_init 97).isSome = true ∧
    (microrl_insert_char c1s1 4).isSome = true ∧
    c1s2.cursor = 1 ∧ c1s2.cmdlen = 0 ∧ ¬ ((1 : Int) ≤ 0) :=
  ⟨rfl, rfl, rfl, rfl, by decide⟩

/-- C2, code bug: the spec invariant `cmdline[cmdlen] == 0x00` is broken by
`^K`.  From init, typing `a b` then `^B` (cursor left, to 1) then `^K` (VT,
0x0B) sets `cmdlen = cursor = 1` without writing a terminator, leaving
`cmdline[cmdlen] = 'b' ≠ 0` after the call returns. -/
theorem C2_ctrlK_drops_terminator :
    (microrl_insert_char c2s2 2).isSome = true ∧
    (microrl_insert_char c2s3 11).isSome = true ∧
    c2s4.cmdlen = 1 ∧ c2s4.cmdline 1 = 98 ∧ (98 : Nat) ≠ 0 :=
  ⟨rfl, rfl, rfl, rfl, by decide⟩

/-- C10, code bug: pressing Tab with a completion callback registered on a
fresh instance (`cursor = 0`) makes `microrl_get_complite` evaluate
`cmdline[cursor - 1]`, i.e. `cmdline[-1]`, an out-of-bounds read (`split`
over the empty prefix returns 0, so the guard `status < 0` does not stop
it); the embedding surfaces the undefined behaviour as `none`. -/
theorem C10_tab_reads_out_of_bounds :
    microrl_insert_char c10state 9 = none ∧
    c10state.cursor - 1 = -1 ∧ readChk c10state.cmdline (-1) = none :=
  ⟨rfl, rfl, rfl⟩

/-- C3, counterexample: the buffer `'a␀b'` (a quoted span whose interior
holds the 0x00 stored for a typed space) is not restored bytewise by
`split` + `restore`: position 2 held 0x00 and reads 0x20 afterwards. -/
theorem C3_roundtrip_cex :
    (restore (split ex3buf 5).buf (split ex3buf 5).qs).1 2 = 32 ∧ ex3buf 2 = 0 :=
  ⟨rfl, rfl⟩

/-- C4, counterexample: saving the single-byte line `a` into the empty ring
lays it out as `[1]['a'][0]` — the byte immediately after the payload is the
end sentinel 0, not a second copy of the length byte 1. -/
theorem C4_no_trailing_len_cex :
    (hist_save_line ringEmpty [97]).buf 0 = 1 ∧
    (hist_save_line ringEmpty [97]).buf 1 = 97 ∧
    (hist_save_line ringEmpty [97]).end_ = 2 ∧
    (hist_save_line ringEmpty [97]).buf 2 = 0 ∧ (0 : Nat) ≠ 1 :=
  ⟨rfl, rfl, rfl, rfl, by decide⟩

/-- C8, counterexample: in sub-state END_PENDING the byte `'['` (0x5B) does
not complete the sequence with no effect — `escape_process` returns 0 (still
active) and moves the sub-state back to BRACKET. -/
theorem C8_bracket_cex :
    (escape_process c8state 91).2.2 = false ∧
    (escape_process c8state 91).1.escape_seq = 1 ∧
    c8state.escape_seq = 3 :=
  ⟨rfl, rfl, rfl⟩

theorem storeSubst_at (text : List Nat) (buf : Int → Nat) (pos j : Int) :
    storeSubst buf pos text j =
      if pos ≤ j ∧ j < pos + text.length then
        (if text.getD (j - pos).toNat 0 = 32 then 0 else text.getD (j - pos).toNat 0)
      else buf j := by
  induction text generalizing buf pos with
  | nil =>
      simp only [storeSubst, List.length_nil, Int.ofNat_zero, Int.add_zero]
      rw [if_neg (show ¬ (pos ≤ j ∧ j < pos) from by omega)]
  | cons c rest ih =>
      simp only [storeSubst, List.length_cons]
      rw [ih]
      by_cases h2 : j = pos
      · subst h2
        rw [if_neg (show ¬ (j + 1 ≤ j ∧ j < j + 1 + (rest.length : Int)) from by omega)]
        show bwriteI buf j (if c = 32 then 0 else c) j = _
        unfold bwriteI
        rw [if_pos (show j = j from rfl),
            if_pos (show j ≤ j ∧ j < j + ((rest.length + 1 : Nat) : Int) from by push_cast; omega)]
        simp only [Int.sub_self, Int.toNat_zero, List.getD_cons_zero]
      · by_cases h1 : pos + 1 ≤ j ∧ j < pos + 1 + (rest.length : Int)
        · rw [if_pos h1,
              if_pos (show pos ≤ j ∧ j < pos + ((rest.length + 1 : Nat) : Int) from by push_cast; omega)]
          rw [show (j - pos).toNat = (j - (pos + 1)).toNat + 1 from by omega, List.getD_cons_succ]
        · rw [if_neg h1]
          show bwriteI buf pos (if c = 32 then 0 else c) j = _
          unfold bwriteI
          rw [if_neg h2,
              if_neg (show ¬ (pos ≤ j ∧ j < pos + ((rest.length + 1 : Nat) : Int)) from by
                push_cast at h1 ⊢; omega)]

theorem insert_text_ok (mrl : Microrl) (text : List Nat)
    (hfit : mrl.cmdlen + (text.length : Int) < (CMDLINE_LEN : Int)) :
    (microrl_insert_text mrl text).1 = .ok ∧
    (microrl_insert_text mrl text).2.cursor = mrl.cursor + text.length ∧
    (microrl_insert_text mrl text).2.cmdlen = mrl.cmdlen + text.length ∧
    (microrl_insert_text mrl text).2.cmdline =
      bwriteI (storeSubst (memmoveI mrl.cmdline (mrl.cursor + text.length) mrl.cursor
          (mrl.cmdlen - mrl.cursor)) mrl.cursor text) (mrl.cmdlen + text.length) 0 := by
  simp only [microrl_insert_text]
  rw [if_pos hfit]
  by_cases hpw : mrl.echo = Echo.once ∧ mrl.start_password = -1
  · rw [if_pos hpw]; exact ⟨rfl, rfl, rfl, rfl⟩
  · rw [if_neg hpw]; exact ⟨rfl, rfl, rfl, rfl⟩

theorem insert_text_err (mrl : Microrl) (text : List Nat)
    (hfit : ¬ mrl.cmdlen + (text.length : Int) < (CMDLINE_LEN : Int)) :
    microrl_insert_text mrl text = (.err, mrl) := by
  simp only [microrl_insert_text]
  rw [if_neg hfit]

/-- C7: `microrl_insert_text` succeeds iff `cmdlen + len < CMDLINE_CAP`; on
success it shifts `cmdline[cursor..cmdlen)` right by `len`, stores the
inserted bytes at the cursor with 0x20 mapped to 0x00, advances `cursor` and
`cmdlen` by `len` and terminates at the new `cmdlen`, leaving all other
positions untouched; on failure it returns the error code and the state is
unchanged.  Quantified over states satisfying the documented cursor
invariant `0 ≤ cursor ≤ cmdlen`. -/
theorem C7_insert_text_spec (mrl : Microrl) (text : List Nat)
    (hc : 0 ≤ mrl.cursor) (hlen : mrl.cursor ≤ mrl.cmdlen) :
    ((microrl_insert_text mrl text).1 = .ok ↔
        mrl.cmdlen + (text.length : Int) < (CMDLINE_LEN : Int)) ∧
    (¬ mrl.cmdlen + (text.length : Int) < (CMDLINE_LEN : Int) →
        microrl_insert_text mrl text = (.err, mrl)) ∧
    (mrl.cmdlen + (text.length : Int) < (CMDLINE_LEN : Int) →
      (microrl_insert_text mrl text).2.cursor = mrl.cursor + text.length ∧
      (microrl_insert_text mrl text).2.cmdlen = mrl.cmdlen + text.length ∧
      (microrl_insert_text mrl text).2.cmdline (mrl.cmdlen + text.length) = 0 ∧
      (∀ j, mrl.cursor ≤ j → j < mrl.cursor + (text.length : Int) →
        (microrl_insert_text mrl text).2.cmdline j =
          (if text.getD (j - mrl.cursor).toNat 0 = 32 then 0
           else text.getD (j - mrl.cursor).toNat 0)) ∧
      (∀ j, mrl.cursor + (text.length : Int) ≤ j → j < mrl.cmdlen + (text.length : Int) →
        (microrl_insert_text mrl text).2.cmdline j = mrl.cmdline (j - text.length)) ∧
      (∀ j, j < mrl.cursor ∨ mrl.cmdlen + (text.length : Int) < j →
        (microrl_insert_text mrl text).2.cmdline j = mrl.cmdline j)) := by
  refine ⟨?_, insert_text_err mrl text, ?_⟩
  · constructor
    · intro hok
      by_cases hfit : mrl.cmdlen + (text.length : Int) < (CMDLINE_LEN : Int)
      · exact hfit
      · rw [insert_text_err mrl text hfit] at hok
        exact absurd hok (by simp)
    · intro hfit
      exact (insert_text_ok mrl text hfit).1
  · intro hfit
    obtain ⟨-, hcur, hcl, hbuf⟩ := insert_text_ok mrl text hfit
    refine ⟨hcur, hcl, ?_, ?_, ?_, ?_⟩
    · rw [hbuf]
      unfold bwriteI
      rw [if_pos (show mrl.cmdlen + (text.length : Int) = mrl.cmdlen + (text.length : Int) from rfl)]
    · intro j h1 h2
      rw [hbuf]
      unfold bwriteI
      rw [if_neg (show ¬ j = mrl.cmdlen + (text.length : Int) from by omega)]
      rw [storeSubst_at]
      rw [if_pos ⟨h1, h2⟩]
    · intro j h1 h2
      rw [hbuf]
      unfold bwriteI
      rw [if_neg (show ¬ j = mrl.cmdlen + (text.length : Int) from by omega)]
      rw [storeSubst_at]
      rw [if_neg (show ¬ (mrl.cursor ≤ j ∧ j < mrl.cursor + (text.length : Int)) from by omega)]
      unfold memmoveI
      rw [if_pos (show mrl.cursor + (text.length : Int) ≤ j ∧
            j < mrl.cursor + (text.length : Int) + (mrl.cmdlen - mrl.cursor) from by omega)]
      rw [show mrl.cursor + (j - (mrl.cursor + (text.length : Int))) = j - text.length from by omega]
    · intro j h1
      rw [hbuf]
      unfold bwriteI
      rw [if_neg (show ¬ j = mrl.cmdlen + (text.length : Int) from by omega)]
      rw [storeSubst_at]
      rw [if_neg (show ¬ (mrl.cursor ≤ j ∧ j < mrl.cursor + (text.length : Int)) from by omega)]
      unfold memmoveI
      rw [if_neg (show ¬ (mrl.cursor + (text.length : Int) ≤ j ∧
            j < mrl.cursor + (text.length : Int) + (mrl.cmdlen - mrl.cursor)) from by omega)]

/-- Witness for C7 at a concrete input: inserting `a` into the fresh
instance succeeds. -/
theorem C7_insert_text_spec_witness :
    (microrl_insert_text microrl_init [97]).1 = Microrlr.ok :=
  (C7_insert_text_spec microrl_init [97] (by decide) (by decide)).1.mpr (by decide)

/-- C9: whenever tokenization of the line fails (`split` returns `-1`), the
new-line handler prints the quoting-enabled error message followed by ENDL,
invokes no `execute` callback, reprints the prompt and resets the line state
(`cmdlen = 0`, `cursor = 0`, `cmdline` zero-filled, history navigation
cursor 0). -/
theorem C9_split_error_handling (mrl : Microrl)
    (hsplit : (split mrl.cmdline mrl.cmdlen).status = -1) :
    (new_line_handler mrl).2 =
      [Ev.print ENDL, Ev.print ERR_TOKENS, Ev.print ENDL, Ev.print mrl.prompt_str] ∧
    execCount (new_line_handler mrl).2 = 0 ∧
    (new_line_handler mrl).1.cmdlen = 0 ∧
    (new_line_handler mrl).1.cursor = 0 ∧
    (∀ j, 0 ≤ j → j < (CMDLINE_LEN : Int) → (new_line_handler mrl).1.cmdline j = 0) ∧
    (new_line_handler mrl).1.ring_hist.cur = 0 := by
  obtain ⟨es, esc, le, rh, ps, cl, cln, cu, qt, ex, gc, si, ec, sp⟩ := mrl
  unfold new_line_handler
  simp only [apply_ite Microrl.echo, apply_ite Microrl.cmdline, apply_ite Microrl.cmdlen,
             apply_ite Microrl.prompt_str, apply_ite Microrl.execute, ite_self]
  rw [hsplit]
  refine ⟨by simp, by simp [execCount], by simp, by simp, ?_, by simp⟩
  intro j h1 h2
  rw [if_pos ⟨h1, h2⟩]

/-- Witness for C9 at a concrete input: the two-byte line `'a` (unterminated
quote) produces exactly the error trace. -/
theorem C9_split_error_handling_witness :
    (new_line_handler c9state).2 =
      [Ev.print ENDL, Ev.print ERR_TOKENS, Ev.print ENDL, Ev.print PROMPT_STRING] :=
  (C9_split_error_handling c9state rfl).1

theorem new_line_handler_escape (mrl : Microrl) :
    (new_line_handler mrl).1.escape = mrl.escape ∧
    (new_line_handler mrl).1.last_endl = mrl.last_endl := by
  obtain ⟨es, esc, le, rh, ps, cl, cln, cu, qt, ex, gc, si, ec, sp⟩ := mrl
  unfold new_line_handler
  constructor <;>
    simp only [apply_ite Microrl.escape, apply_ite Microrl.last_endl, ite_self]

theorem new_line_handler_trace (mrl : Microrl) :
    nlhCount (new_line_handler mrl).2 = 0 ∧ execCount (new_line_handler mrl).2 ≤ 1 := by
  obtain ⟨es, esc, le, rh, ps, cl, cln, cu, qt, ex, gc, si, ec, sp⟩ := mrl
  unfold new_line_handler
  simp only [apply_ite Microrl.echo, apply_ite Microrl.cmdline, apply_ite Microrl.cmdlen,
             apply_ite Microrl.prompt_str, apply_ite Microrl.execute, ite_self]
  constructor <;> split_ifs <;> simp [nlhCount, execCount]

theorem insert_char_coalesce_lf (s : Microrl) (hesc : s.escape = 0) (hle : s.last_endl = 13) :
    microrl_insert_char s 10 = some ({ s with last_endl := 0 }, []) := by
  obtain ⟨es, esc, le, rh, ps, cl, cln, cu, qt, ex, gc, si, ec, sp⟩ := s
  dsimp only at hesc hle
  subst hesc hle
  simp [microrl_insert_char]

theorem insert_char_coalesce_cr (s : Microrl) (hesc : s.escape = 0) (hle : s.last_endl = 10) :
    microrl_insert_char s 13 = some ({ s with last_endl := 0 }, []) := by
  obtain ⟨es, esc, le, rh, ps, cl, cln, cu, qt, ex, gc, si, ec, sp⟩ := s
  dsimp only at hesc hle
  subst hesc hle
  simp [microrl_insert_char]

theorem nlhCount_cons_nlh (l : List Ev) : nlhCount (Ev.nlh :: l) = nlhCount l + 1 := by
  simp [nlhCount]

theorem execCount_cons_nlh (l : List Ev) : execCount (Ev.nlh :: l) = execCount l := by
  simp [execCount]

/-- C6: with `last_endl = 0` before the pair (and the dispatcher in its
normal state, no escape sequence in progress — the CR/LF rule is the
else-branch of escape handling), a CR byte immediately followed by LF runs
the new-line handler exactly once: the CR triggers it (one `nlh` event, at
most one `execute`) and the LF is coalesced, returning the state unchanged
except for zeroing `last_endl`, with no events; symmetrically for LF
followed by CR. -/
theorem C6_crlf_single_newline (mrl : Microrl)
    (hen : mrl.last_endl = 0) (hesc : mrl.escape = 0) :
    (microrl_insert_char mrl 13 = some ((newlineStep mrl 13).1, Ev.nlh :: (newlineStep mrl 13).2)) ∧
    nlhCount (Ev.nlh :: (newlineStep mrl 13).2) = 1 ∧
    execCount (Ev.nlh :: (newlineStep mrl 13).2) ≤ 1 ∧
    microrl_insert_char (newlineStep mrl 13).1 10 =
      some ({ (newlineStep mrl 13).1 with last_endl := 0 }, []) ∧
    (microrl_insert_char mrl 10 = some ((newlineStep mrl 10).1, Ev.nlh :: (newlineStep mrl 10).2)) ∧
    nlhCount (Ev.nlh :: (newlineStep mrl 10).2) = 1 ∧
    execCount (Ev.nlh :: (newlineStep mrl 10).2) ≤ 1 ∧
    microrl_insert_char (newlineStep mrl 10).1 13 =
      some ({ (newlineStep mrl 10).1 with last_endl := 0 }, []) := by
  refine ⟨?_, ?_, ?_, ?_, ?_, ?_, ?_, ?_⟩
  · simp [microrl_insert_char, hesc, hen, newlineStep]
  · rw [nlhCount_cons_nlh]
    simp only [newlineStep]
    rw [(new_line_handler_trace _).1]
  · rw [execCount_cons_nlh]
    simp only [newlineStep]
    exact (new_line_handler_trace _).2
  · exact insert_char_coalesce_lf _ (by rw [newlineStep, (new_line_handler_escape _).1]; exact hesc)
      (by rw [newlineStep, (new_line_handler_escape _).2])
  · simp [microrl_insert_char, hesc, hen, newlineStep]
  · rw [nlhCount_cons_nlh]
    simp only [newlineStep]
    rw [(new_line_handler_trace _).1]
  · rw [execCount_cons_nlh]
    simp only [newlineStep]
    exact (new_line_handler_trace _).2
  · exact insert_char_coalesce_cr _ (by rw [newlineStep, (new_line_handler_escape _).1]; exact hesc)
      (by rw [newlineStep, (new_line_handler_escape _).2])

/-- Witness for C6 at a concrete input: from init, CR then LF — the LF is
consumed with no events, only clearing `last_endl`. -/
theorem C6_crlf_single_newline_witness :
    microrl_insert_char (newlineStep microrl_init 13).1 10 =
      some ({ (newlineStep microrl_init 13).1 with last_endl := 0 }, []) :=
  (C6_crlf_single_newline microrl_init rfl rfl).2.2.2.1

/-- C8 (amended): from HOME_PENDING (`escape_seq = 2`) or END_PENDING
(`escape_seq = 3`), `'~'` moves the cursor to column 0 resp. `cmdlen` and
completes; every byte other than `'~'` and `'['` completes the sequence with
no effect at all; `'['` is the exception the original claim missed
(`C8_bracket_cex`). -/
theorem C8_home_end_pending (mrl : Microrl) (h : mrl.escape_seq = 2 ∨ mrl.escape_seq = 3) :
    (∀ ch, ch ≠ 126 → ch ≠ 91 → escape_process mrl ch = (mrl, [], true)) ∧
    ((escape_process mrl 126).1.cursor = if mrl.escape_seq = 2 then 0 else mrl.cmdlen) ∧
    (escape_process mrl 126).1.cmdlen = mrl.cmdlen ∧
    (escape_process mrl 126).1.cmdline = mrl.cmdline ∧
    (escape_process mrl 126).2.2 = true := by
  have h1 : mrl.escape_seq ≠ 1 := by rcases h with h | h <;> omega
  refine ⟨?_, ?_⟩
  · intro ch hch hbr
    unfold escape_process
    rw [if_neg hbr, if_neg h1, if_neg hch]
  · rcases h with h | h <;> simp [escape_process, h]

/-- Witness for C8 at a concrete input: in END_PENDING, byte `A` completes
with no effect and `'~'` moves the cursor to `cmdlen`. -/
theorem C8_home_end_pending_witness :
    escape_process c8state 65 = (c8state, [], true) ∧
    (escape_process c8state 126).1.cursor = c8state.cmdlen := by
  constructor
  · exact (C8_home_end_pending c8state (Or.inr rfl)).1 65 (by decide) (by decide)
  · have h := (C8_home_end_pending c8state (Or.inr rfl)).2.1
    rw [h]
    rfl

theorem hist_evict_buf_end (f : Nat) (r : RingHist) (len : Nat) :
    (hist_evict f r len).buf = r.buf ∧ (hist_evict f r len).end_ = r.end_ := by
  induction f generalizing r with
  | zero => exact ⟨rfl, rfl⟩
  | succ f ih =>
      unfold hist_evict
      split
      · exact ⟨rfl, rfl⟩
      · exact ih _

theorem getD_take (l : List Nat) (n k : Nat) (h : k < n) :
    (l.take n).getD k 0 = l.getD k 0 := by
  simp [List.getD_eq_getElem?_getD, List.getElem?_take, h]

theorem getD_drop (l : List Nat) (n k : Nat) :
    (l.drop n).getD k 0 = l.getD (n + k) 0 := by
  simp [List.getD_eq_getElem?_getD, List.getElem?_drop]

theorem memcpy_at_lo (buf : Nat → Nat) (line : List Nat) (e k : Nat)
    (he : e < RING_HISTORY_LEN) (hk : k < line.length)
    (hsm : line.length + e + 1 ≤ RING_HISTORY_LEN - 1) :
    memcpyN buf (e + 1) line ((e + 1 + k) % RING_HISTORY_LEN) = line.getD k 0 := by
  have he2 : e < 64 := he
  have hsm2 : line.length + e + 1 ≤ 63 := hsm
  have hlt : e + 1 + k < RING_HISTORY_LEN := by show e + 1 + k < 64; omega
  rw [Nat.mod_eq_of_lt hlt]
  unfold memcpyN
  rw [if_pos (show e + 1 ≤ e + 1 + k ∧ e + 1 + k < e + 1 + line.length from by omega)]
  congr 1
  omega

theorem memcpy_at_wrap (buf : Nat → Nat) (line : List Nat) (e k : Nat)
    (he : e < RING_HISTORY_LEN) (hlen : line.length ≤ RING_HISTORY_LEN - 2)
    (hk : k < line.length) (hsm : RING_HISTORY_LEN - e - 1 ≤ line.length) :
    memcpyN (memcpyN buf (e + 1) (line.take (RING_HISTORY_LEN - e - 1))) 0
      (line.drop (RING_HISTORY_LEN - e - 1)) ((e + 1 + k) % RING_HISTORY_LEN) =
      line.getD k 0 := by
  have he2 : e < 64 := he
  have hlen2 : line.length ≤ 62 := hlen
  have hsm2 : 64 - e - 1 ≤ line.length := hsm
  by_cases hkp : k < 64 - e - 1
  · have hlt : e + 1 + k < RING_HISTORY_LEN := by show e + 1 + k < 64; omega
    rw [Nat.mod_eq_of_lt hlt]
    unfold memcpyN
    rw [if_neg (show ¬ (0 ≤ e + 1 + k ∧
          e + 1 + k < 0 + (line.drop (RING_HISTORY_LEN - e - 1)).length) from by
      simp only [List.length_drop]
      show ¬ (0 ≤ e + 1 + k ∧ e + 1 + k < 0 + (line.length - (64 - e - 1)))
      omega)]
    rw [if_pos (show e + 1 ≤ e + 1 + k ∧
          e + 1 + k < e + 1 + (line.take (RING_HISTORY_LEN - e - 1)).length from by
      simp only [List.length_take]
      show e + 1 ≤ e + 1 + k ∧ e + 1 + k < e + 1 + min (64 - e - 1) line.length
      omega)]
    rw [show e + 1 + k - (e + 1) = k from by omega]
    exact getD_take line (RING_HISTORY_LEN - e - 1) k hkp
  · have hmod : (e + 1 + k) % RING_HISTORY_LEN = k - (RING_HISTORY_LEN - e - 1) := by
      show (e + 1 + k) % 64 = k - (64 - e - 1)
      omega
    rw [hmod]
    unfold memcpyN
    rw [if_pos (show 0 ≤ k - (RING_HISTORY_LEN - e - 1) ∧
          k - (RING_HISTORY_LEN - e - 1) <
            0 + (line.drop (RING_HISTORY_LEN - e - 1)).length from by
      simp only [List.length_drop]
      show 0 ≤ k - (64 - e - 1) ∧ k - (64 - e - 1) < 0 + (line.length - (64 - e - 1))
      omega)]
    rw [show k - (RING_HISTORY_LEN - e - 1) - 0 = k - (RING_HISTORY_LEN - e - 1) from by
      show k - (64 - e - 1) - 0 = k - (64 - e - 1)
      omega]
    rw [getD_drop]
    congr 1
    show 64 - e - 1 + (k - (64 - e - 1)) = k
    omega

theorem memcpy_ring_at (buf : Nat → Nat) (line : List Nat) (e : Nat)
    (he : e < RING_HISTORY_LEN) (hlen : line.length ≤ RING_HISTORY_LEN - 2)
    (k : Nat) (hk : k < line.length) :
    (if (line.length : Int) < (RING_HISTORY_LEN : Int) - e - 1 then
        memcpyN buf (e + 1) line
      else
        memcpyN (memcpyN buf (e + 1) (line.take (RING_HISTORY_LEN - e - 1))) 0
          (line.drop (RING_HISTORY_LEN - e - 1)))
      ((e + 1 + k) % RING_HISTORY_LEN) = line.getD k 0 := by
  have he2 : e < 64 := he
  have hlen2 : line.length ≤ 62 := hlen
  by_cases hsm : (line.length : Int) < (RING_HISTORY_LEN : Int) - e - 1
  · rw [if_pos hsm]
    refine memcpy_at_lo buf line e k he hk ?_
    have hsm2 : (line.length : Int) < (64 : Int) - (e : Int) - 1 := hsm
    clear hsm
    push_cast at hsm2
    show line.length + e + 1 ≤ 63
    omega
  · rw [if_neg hsm]
    refine memcpy_at_wrap buf line e k he hlen hk ?_
    have hsm2 : ¬ (line.length : Int) < (64 : Int) - (e : Int) - 1 := hsm
    clear hsm
    push_cast at hsm2
    show 64 - e - 1 ≤ line.length
    omega

theorem wrapHist_eq_mod (x : Nat) (h : x < 2 * RING_HISTORY_LEN) :
    wrapHist x = x % RING_HISTORY_LEN := by
  have h2 : x < 128 := h
  unfold wrapHist
  split
  · rename_i hge
    have h4 : x ≥ 64 := hge
    show x - 64 = x % 64
    omega
  · rename_i hlt
    have h3 : ¬ x ≥ 64 := hlt
    show x = x % 64
    omega

/-- C4 (amended): a successful `hist_save_line` lays the entry out as
`[len][payload]` at the pre-save `end` position, with the payload wrapping
modulo `HIST_CAP`; the byte immediately after the payload is the new end
sentinel 0 (later overwritten by the next entry's length byte), not a second
copy of `len` (`C4_no_trailing_len_cex`). -/
theorem C4_layout_prefix_only (r : RingHist) (line : List Nat)
    (he : r.end_ < RING_HISTORY_LEN) (hlen : line.length ≤ RING_HISTORY_LEN - 2) :
    (hist_save_line r line).buf r.end_ = line.length ∧
    (∀ k, k < line.length →
      (hist_save_line r line).buf ((r.end_ + 1 + k) % RING_HISTORY_LEN) = line.getD k 0) ∧
    (hist_save_line r line).end_ = (r.end_ + line.length + 1) % RING_HISTORY_LEN ∧
    (hist_save_line r line).buf ((r.end_ + line.length + 1) % RING_HISTORY_LEN) = 0 := by
  have he2 : r.end_ < 64 := he
  have hlen2 : line.length ≤ 62 := hlen
  have hguard : ¬ line.length > RING_HISTORY_LEN - 2 := by
    have : ¬ line.length > 62 := by omega
    exact this
  simp only [hist_save_line]
  rw [if_neg hguard]
  obtain ⟨hb, hen⟩ := hist_evict_buf_end RING_HISTORY_LEN r line.length
  rw [hb, hen]
  rw [wrapHist_eq_mod (r.end_ + line.length + 1)
    (by show _ < 128; omega)]
  dsimp only
  refine ⟨?_, ?_, rfl, ?_⟩
  · unfold bwriteN
    rw [if_neg (show ¬ r.end_ = (r.end_ + line.length + 1) % RING_HISTORY_LEN from by
      show ¬ r.end_ = (r.end_ + line.length + 1) % 64; omega)]
    rw [if_pos (show r.end_ = r.end_ from rfl)]
  · intro k hk
    unfold bwriteN
    rw [if_neg (show ¬ (r.end_ + 1 + k) % RING_HISTORY_LEN =
          (r.end_ + line.length + 1) % RING_HISTORY_LEN from by
      show ¬ (r.end_ + 1 + k) % 64 = (r.end_ + line.length + 1) % 64; omega)]
    rw [if_neg (show ¬ (r.end_ + 1 + k) % RING_HISTORY_LEN = r.end_ from by
      show ¬ (r.end_ + 1 + k) % 64 = r.end_; omega)]
    exact memcpy_ring_at _ line r.end_ he hlen k hk
  · unfold bwriteN
    rw [if_pos (show (r.end_ + line.length + 1) % RING_HISTORY_LEN =
          (r.end_ + line.length + 1) % RING_HISTORY_LEN from rfl)]

/-- Witness for C4 at a concrete input: the first saved byte line `a` puts
its length byte at the old `end` position. -/
theorem C4_layout_prefix_only_witness :
    (hist_save_line ringEmpty [97]).buf ringEmpty.end_ = 1 :=
  (C4_layout_prefix_only ringEmpty [97] (by decide) (by decide)).1

theorem restore_clears (buf : Int → Nat) (qs : Quotes) :
    (restore buf qs).2.q0.end_ = none := by
  obtain ⟨⟨b0o, e0o⟩, ⟨b1o, e1o⟩⟩ := qs
  cases e0o with
  | none => rfl
  | some e0 =>
      cases e1o with
      | none => rfl
      | some e1 => rfl

theorem restore_none (buf : Int → Nat) (qs : Quotes) (h : qs.q0.end_ = none) :
    restore buf qs = (buf, qs) := by
  obtain ⟨⟨b0o, e0o⟩, ⟨b1o, e1o⟩⟩ := qs
  dsimp only at h
  subst h
  rfl

theorem restore_approx (buf0 buf : Int → Nat) (qs : Quotes) (iq quote : Nat) (ind : Int)
    (h : QInv buf0 buf qs iq quote ind) : Approx buf0 (restore buf qs).1 := by
  obtain ⟨-, happ, hsh⟩ := h
  obtain ⟨⟨b0o, e0o⟩, ⟨b1o, e1o⟩⟩ := qs
  rcases hsh with ⟨-, -, h0, h1⟩ | ⟨-, ⟨b, hb⟩, h1⟩ | ⟨-, -, hc, h1⟩ |
    ⟨-, b1, hp, hc⟩ | ⟨-, -, m, hc0, hc1⟩
  · dsimp only at h0
    subst h0
    intro j
    rcases happ j with h | h | h | h
    · exact Or.inl h
    · exact Or.inr h
    · exact absurd h (by simp)
    · dsimp only at h1; rw [h1] at h; exact absurd h (by simp)
  · obtain ⟨hbeg, hend, -⟩ := hb
    dsimp only at hend
    subst hend
    intro j
    rcases happ j with h | h | h | h
    · exact Or.inl h
    · exact Or.inr h
    · exact absurd h (by simp)
    · dsimp only at h1; rw [h1] at h; exact absurd h (by simp)
  · obtain ⟨b, e, hbeg, hend, -, hbe, hei, hbufe, hbufb, h0e⟩ := hc
    dsimp only at hbeg hend h1
    subst hbeg hend h1
    unfold restore
    dsimp only
    intro j
    by_cases hj : j = e
    · subst hj
      left
      simp only [bwriteI, Option.getD, eq_self_iff_true, if_true]
      rw [hbufb, ← h0e]
    · simp only [bwriteI]
      rw [if_neg hj]
      rcases happ j with h | h | h | h
      · exact Or.inl h
      · exact Or.inr h
      · exact absurd h (by simp [Option.some_inj]; omega)
      · exact absurd h (by simp)
  · obtain ⟨hbeg1, hend1, -⟩ := hp
    obtain ⟨b, e, hbeg, hend, -, hbe, hei, hbufe, hbufb, h0e⟩ := hc
    dsimp only at hbeg hend hbeg1 hend1
    subst hbeg hend hend1
    unfold restore
    dsimp only
    intro j
    by_cases hj : j = e
    · subst hj
      left
      simp only [bwriteI, Option.getD, eq_self_iff_true, if_true]
      rw [hbufb, ← h0e]
    · simp only [bwriteI]
      rw [if_neg hj]
      rcases happ j with h | h | h | h
      · exact Or.inl h
      · exact Or.inr h
      · exact absurd h (by simp [Option.some_inj]; omega)
      · exact absurd h (by simp)
  · obtain ⟨b0, e0, hbeg0, hend0, -, hbe0, he0m, hbufe0, hbufb0, h0e0⟩ := hc0
    obtain ⟨b1, e1, hbeg1, hend1, hmb1, hbe1, he1i, hbufe1, hbufb1, h0e1⟩ := hc1
    dsimp only at hbeg0 hend0 hbeg1 hend1
    subst hbeg0 hend0 hbeg1 hend1
    unfold restore
    dsimp only
    intro j
    have hne : e0 ≠ e1 := by omega
    have hb1e0 : b1 ≠ e0 := by omega
    by_cases hj1 : j = e1
    · subst hj1
      left
      simp only [bwriteI, Option.getD, eq_self_iff_true, if_true]
      rw [if_neg hb1e0]
      rw [hbufb1, ← h0e1]
    · by_cases hj0 : j = e0
      · left
        rw [hj0]
        simp only [bwriteI, Option.getD, eq_self_iff_true, if_true]
        rw [if_neg (show ¬ e0 = e1 from hne)]
        rw [hbufb0, ← h0e0]
      · simp only [bwriteI]
        rw [if_neg hj1, if_neg hj0]
        rcases happ j with h | h | h | h
        · exact Or.inl h
        · exact Or.inr h
        · exact absurd h (by simp [Option.some_inj]; omega)
        · exact absurd h (by simp [Option.some_inj]; omega)

theorem CompleteShape_mono (buf0 buf : Int → Nat) (r : QuoteRec) (lb ub lb2 ub2 : Int)
    (hl : lb2 ≤ lb) (hu : ub ≤ ub2) (h : CompleteShape buf0 buf r lb ub) :
    CompleteShape buf0 buf r lb2 ub2 := by
  obtain ⟨b, e, h1, h2, h3, h4, h5, h6, h7, h8⟩ := h
  exact ⟨b, e, h1, h2, by omega, h4, by omega, h6, h7, h8⟩

theorem PendAt_mono (buf0 buf : Int → Nat) (r : QuoteRec) (q : Nat) (b ub ub2 : Int)
    (hu : ub ≤ ub2) (h : PendAt buf0 buf r q b ub) : PendAt buf0 buf r q b ub2 := by
  obtain ⟨h1, h2, h3, h4, h5, h6, h7⟩ := h
  exact ⟨h1, h2, h3, by omega, h5, h6, h7⟩

theorem QInv_mono (buf0 buf : Int → Nat) (qs : Quotes) (iq quote : Nat) (ind ind' : Int)
    (hle : ind ≤ ind') (h : QInv buf0 buf qs iq quote ind) :
    QInv buf0 buf qs iq quote ind' := by
  obtain ⟨hi, happ, hsh⟩ := h
  refine ⟨by omega, happ, ?_⟩
  rcases hsh with ⟨ha, hb, hc, hd⟩ | ⟨ha, ⟨b, hb⟩, hc⟩ | ⟨ha, hb, hc, hd⟩ |
    ⟨ha, b1, hp, hc⟩ | ⟨ha, hb, m, hc0, hc1⟩
  · exact Or.inl ⟨ha, hb, hc, hd⟩
  · exact Or.inr (Or.inl ⟨ha, ⟨b, PendAt_mono _ _ _ _ _ _ _ hle hb⟩, hc⟩)
  · exact Or.inr (Or.inr (Or.inl ⟨ha, hb,
      CompleteShape_mono _ _ _ _ _ _ _ le_rfl hle hc, hd⟩))
  · exact Or.inr (Or.inr (Or.inr (Or.inl ⟨ha, b1, PendAt_mono _ _ _ _ _ _ _ hle hp, hc⟩)))
  · exact Or.inr (Or.inr (Or.inr (Or.inr ⟨ha, hb, m, hc0,
      CompleteShape_mono _ _ _ _ _ _ _ le_rfl hle hc1⟩)))

theorem CompleteShape_write (buf0 buf : Int → Nat) (r : QuoteRec) (lb ub ind : Int) (v : Nat)
    (hub : ub ≤ ind) (h : CompleteShape buf0 buf r lb ub) :
    CompleteShape buf0 (bwriteI buf ind v) r lb ub := by
  obtain ⟨b, e, h1, h2, h3, h4, h5, h6, h7, h8⟩ := h
  refine ⟨b, e, h1, h2, h3, h4, h5, ?_, ?_, h8⟩
  · show (if e = ind then v else buf e) = 0
    rw [if_neg (by omega)]
    exact h6
  · show (if b = ind then v else buf b) = buf0 b
    rw [if_neg (by omega)]
    exact h7

theorem PendAt_write (buf0 buf : Int → Nat) (r : QuoteRec) (q : Nat) (b ub ind : Int) (v : Nat)
    (hub : ub ≤ ind) (h : PendAt buf0 buf r q b ub) :
    PendAt buf0 (bwriteI buf ind v) r q b ub := by
  obtain ⟨h1, h2, h3, h4, h5, h6, h7⟩ := h
  refine ⟨h1, h2, h3, h4, ?_, h6, h7⟩
  show (if b = ind then v else buf b) = buf0 b
  rw [if_neg (by omega)]
  exact h5

theorem QInv_ends_lt (buf0 buf : Int → Nat) (qs : Quotes) (iq quote : Nat) (ind : Int)
    (h : QInv buf0 buf qs iq quote ind) :
    (∀ j, qs.q0.end_ = some j → j < ind) ∧ (∀ j, qs.q1.end_ = some j → j < ind) := by
  obtain ⟨-, -, hsh⟩ := h
  rcases hsh with ⟨-, -, hc, hd⟩ | ⟨-, ⟨b, -, hb2, -, -, -, -, -⟩, hc⟩ | ⟨-, -, hc, hd⟩ |
    ⟨-, b1, hp, hc⟩ | ⟨-, -, m, hc0, hc1⟩
  · exact ⟨(fun j hj => by rw [hc] at hj; cases hj), (fun j hj => by rw [hd] at hj; cases hj)⟩
  · exact ⟨(fun j hj => by rw [hb2] at hj; cases hj), (fun j hj => by rw [hc] at hj; cases hj)⟩
  · obtain ⟨b, e, -, he, -, -, hei, -, -, -⟩ := hc
    refine ⟨fun j hj => ?_, fun j hj => by rw [hd] at hj; cases hj⟩
    rw [he] at hj
    cases hj
    omega
  · obtain ⟨-, hp2, -, hb1i, -, -, -⟩ := hp
    obtain ⟨b, e, -, he, -, -, hei, -, -, -⟩ := hc
    refine ⟨fun j hj => ?_, fun j hj => by rw [hp2] at hj; cases hj⟩
    rw [he] at hj
    cases hj
    omega
  · obtain ⟨b, e, -, he, -, -, hei, -, -, -⟩ := hc0
    obtain ⟨b1, e1, -, he1, hmb, hb1e1, he1i, -, -, -⟩ := hc1
    constructor
    · intro j hj
      rw [he] at hj
      cases hj
      omega
    · intro j hj
      rw [he1] at hj
      cases hj
      omega

theorem ApproxQ_write32 (buf0 buf : Int → Nat) (qs : Quotes) (ind : Int)
    (happ : ApproxQ buf0 buf qs)
    (hlt0 : ∀ j, qs.q0.end_ = some j → j < ind)
    (hlt1 : ∀ j, qs.q1.end_ = some j → j < ind)
    (h2 : buf ind = 0) :
    ApproxQ buf0 (bwriteI buf ind 32) qs := by
  intro j
  by_cases hj : j = ind
  · subst hj
    rcases happ j with hh | hh | hh | hh
    · refine Or.inr (Or.inl ⟨by rw [← hh, h2], ?_⟩)
      show (if j = j then 32 else buf j) = 32
      rw [if_pos rfl]
    · exact absurd (hh.2.symm.trans h2) (by omega)
    · exact absurd (hlt0 j hh) (by omega)
    · exact absurd (hlt1 j hh) (by omega)
  · have : bwriteI buf ind 32 j = buf j := by
      show (if j = ind then 32 else buf j) = buf j
      rw [if_neg hj]
    rw [this]
    exact happ j

theorem QInv_step_space (buf0 buf : Int → Nat) (qs : Quotes) (iq quote : Nat) (ind : Int)
    (h : QInv buf0 buf qs iq quote ind) (h2 : buf ind = 0) (h3 : quote ≠ 0) :
    QInv buf0 (bwriteI buf ind 32) qs iq quote (ind + 1) := by
  obtain ⟨he0, he1⟩ := QInv_ends_lt buf0 buf qs iq quote ind h
  obtain ⟨hi, happ, hsh⟩ := h
  refine ⟨by omega, ApproxQ_write32 buf0 buf qs ind happ he0 he1 h2, ?_⟩
  rcases hsh with ⟨-, hq, -, -⟩ | ⟨ha, ⟨b, hb⟩, hc⟩ | ⟨-, hq, -, -⟩ |
    ⟨ha, b1, hp, hc⟩ | ⟨-, hq, -, -⟩
  · exact absurd hq h3
  · exact Or.inr (Or.inl ⟨ha,
      ⟨b, PendAt_mono _ _ _ _ _ _ _ (by omega)
        (PendAt_write _ _ _ _ _ _ _ _ le_rfl hb)⟩, hc⟩)
  · exact absurd hq h3
  · have hb1i : b1 < ind := hp.2.2.2.1
    exact Or.inr (Or.inr (Or.inr (Or.inl ⟨ha, b1,
      PendAt_mono _ _ _ _ _ _ _ (by omega) (PendAt_write _ _ _ _ _ _ _ _ le_rfl hp),
      CompleteShape_write _ _ _ _ _ _ _ (by omega) hc⟩)))
  · exact absurd hq h3

theorem QInv_step_close (buf0 buf : Int → Nat) (qs : Quotes) (iq quote : Nat) (ind : Int)
    (h : QInv buf0 buf qs iq quote ind) (h2 : buf ind ≠ 0) (h4 : buf ind = quote) :
    QInv buf0 (bwriteI buf ind 0) (setQEnd qs iq ind) (iq + 1) 0 (ind + 1) := by
  obtain ⟨hi, happ, hsh⟩ := h
  have hq3 : quote ≠ 0 := fun hz => h2 (h4.trans hz)
  rcases hsh with ⟨-, hq, -, -⟩ | ⟨hiq, ⟨b, hb⟩, hc1⟩ | ⟨-, hq, -, -⟩ |
    ⟨hiq, b1, hp, hc⟩ | ⟨-, hq, -, -⟩
  · exact absurd hq hq3
  · subst hiq
    obtain ⟨hbeg, hend, hb0, hbi, hbufb, h0b, hq39⟩ := hb
    have hbuf0ind : buf0 ind = quote := by
      rcases happ ind with hh | hh | hh | hh
      · rw [← hh, h4]
      · exact absurd (hh.2.symm.trans h4) (by rcases hq39 with hq | hq <;> omega)
      · rw [hend] at hh; cases hh
      · rw [hc1] at hh; cases hh
    refine ⟨by omega, ?_, ?_⟩
    · intro j
      by_cases hj : j = ind
      · subst hj
        refine Or.inr (Or.inr (Or.inl ?_))
        show (setQEnd qs 0 j).q0.end_ = some j
        simp [setQEnd]
      · have hw : bwriteI buf ind 0 j = buf j := by
          show (if j = ind then 0 else buf j) = buf j
          rw [if_neg hj]
        rw [hw]
        rcases happ j with hh | hh | hh | hh
        · exact Or.inl hh
        · exact Or.inr (Or.inl hh)
        · rw [hend] at hh; cases hh
        · refine Or.inr (Or.inr (Or.inr ?_))
          show (setQEnd qs 0 ind).q1.end_ = some j
          simpa [setQEnd] using hh
    · refine Or.inr (Or.inr (Or.inl ⟨rfl, rfl, ?_, ?_⟩))
      · refine ⟨b, ind, ?_, ?_, hb0, hbi, by omega, ?_, ?_, ?_⟩
        · show (setQEnd qs 0 ind).q0.begin = some b
          simp [setQEnd, hbeg]
        · show (setQEnd qs 0 ind).q0.end_ = some ind
          simp [setQEnd]
        · show (if ind = ind then 0 else buf ind) = 0
          rw [if_pos rfl]
        · show (if b = ind then 0 else buf b) = buf0 b
          rw [if_neg (by omega)]
          exact hbufb
        · rw [hbuf0ind, h0b]
      · show (setQEnd qs 0 ind).q1.end_ = none
        simpa [setQEnd] using hc1
  · exact absurd hq hq3
  · subst hiq
    obtain ⟨hbeg, hend, hb0, hbi, hbufb, h0b, hq39⟩ := hp
    have hbuf0ind : buf0 ind = quote := by
      rcases happ ind with hh | hh | hh | hh
      · rw [← hh, h4]
      · exact absurd (hh.2.symm.trans h4) (by rcases hq39 with hq | hq <;> omega)
      · obtain ⟨bb, ee, -, hee, -, -, heei, -, -, -⟩ := hc
        rw [hee] at hh
        cases hh
        omega
      · rw [hend] at hh; cases hh
    refine ⟨by omega, ?_, ?_⟩
    · intro j
      by_cases hj : j = ind
      · subst hj
        refine Or.inr (Or.inr (Or.inr ?_))
        show (setQEnd qs 1 j).q1.end_ = some j
        simp [setQEnd]
      · have hw : bwriteI buf ind 0 j = buf j := by
          show (if j = ind then 0 else buf j) = buf j
          rw [if_neg hj]
        rw [hw]
        rcases happ j with hh | hh | hh | hh
        · exact Or.inl hh
        · exact Or.inr (Or.inl hh)
        · refine Or.inr (Or.inr (Or.inl ?_))
          show (setQEnd qs 1 ind).q0.end_ = some j
          simpa [setQEnd] using hh
        · rw [hend] at hh; cases hh
    · refine Or.inr (Or.inr (Or.inr (Or.inr ⟨rfl, rfl, b1, ?_, ?_⟩)))
      · have hc2 : CompleteShape buf0 (bwriteI buf ind 0) qs.q0 0 b1 :=
          CompleteShape_write _ _ _ _ _ _ _ (by omega) hc
        obtain ⟨bb, ee, hh1, hh2, hh3, hh4, hh5, hh6, hh7, hh8⟩ := hc2
        refine ⟨bb, ee, ?_, ?_, hh3, hh4, hh5, hh6, hh7, hh8⟩
        · show (setQEnd qs 1 ind).q0.begin = some bb
          simpa [setQEnd] using hh1
        · show (setQEnd qs 1 ind).q0.end_ = some ee
          simpa [setQEnd] using hh2
      · refine ⟨b1, ind, ?_, ?_, le_rfl, hbi, by omega, ?_, ?_, ?_⟩
        · show (setQEnd qs 1 ind).q1.begin = some b1
          simp [setQEnd, hbeg]
        · show (setQEnd qs 1 ind).q1.end_ = some ind
          simp [setQEnd]
        · show (if ind = ind then 0 else buf ind) = 0
          rw [if_pos rfl]
        · show (if b1 = ind then 0 else buf b1) = buf0 b1
          rw [if_neg (by omega)]
          exact hbufb
        · rw [hbuf0ind, h0b]
  · exact absurd hq hq3

theorem setQBegin_ends (qs : Quotes) (iq : Nat) (b : Int) :
    (setQBegin qs iq b).q0.end_ = qs.q0.end_ ∧ (setQBegin qs iq b).q1.end_ = qs.q1.end_ := by
  unfold setQBegin
  split_ifs <;> exact ⟨rfl, rfl⟩

theorem QInv_step_open (buf0 buf : Int → Nat) (qs : Quotes) (iq quote : Nat) (ind : Int)
    (h : QInv buf0 buf qs iq quote ind) (hq : buf ind = 39 ∨ buf ind = 34) (hiq : iq < 2) :
    QInv buf0 buf (setQBegin qs iq ind) iq (buf ind) (ind + 1) := by
  obtain ⟨hi, happ, hsh⟩ := h
  obtain ⟨hse0, hse1⟩ := setQBegin_ends qs iq ind
  have happ2 : ApproxQ buf0 buf (setQBegin qs iq ind) := by
    intro j
    rcases happ j with hh | hh | hh | hh
    · exact Or.inl hh
    · exact Or.inr (Or.inl hh)
    · exact Or.inr (Or.inr (Or.inl (hse0.symm ▸ hh)))
    · exact Or.inr (Or.inr (Or.inr (hse1.symm ▸ hh)))
  refine ⟨by omega, happ2, ?_⟩
  have hne0 : ∀ j, qs.q0.end_ = some j → j < ind :=
    (QInv_ends_lt buf0 buf qs iq quote ind ⟨hi, happ, hsh⟩).1
  have hbuf0 : buf0 ind = buf ind := by
    rcases happ ind with hh | hh | hh | hh
    · exact hh.symm
    · have h32 := hh.2
      rcases hq with hx | hx <;> rw [hx] at h32 <;> exact absurd h32 (by omega)
    · exact absurd (hne0 ind hh) (by omega)
    · exact absurd ((QInv_ends_lt buf0 buf qs iq quote ind ⟨hi, happ, hsh⟩).2 ind hh) (by omega)
  rcases hsh with ⟨hiq0, -, hc, hd⟩ | ⟨hiq0, ⟨b, hb⟩, hc⟩ | ⟨hiq1, -, hc, hd⟩ |
    ⟨hiq1, b1, hp, hc⟩ | ⟨hiq2, -, -⟩
  · subst hiq0
    refine Or.inr (Or.inl ⟨rfl, ⟨ind, ?_, ?_, hi, by omega, hbuf0.symm, hbuf0, hq⟩, ?_⟩)
    · show (setQBegin qs 0 ind).q0.begin = some ind
      simp [setQBegin]
    · exact hse0.trans hc
    · exact hse1.trans hd
  · subst hiq0
    obtain ⟨-, hend, -, -, -, -, -⟩ := hb
    refine Or.inr (Or.inl ⟨rfl, ⟨ind, ?_, hse0.trans hend, hi, by omega, hbuf0.symm, hbuf0, hq⟩,
      hse1.trans hc⟩)
    show (setQBegin qs 0 ind).q0.begin = some ind
    simp [setQBegin]
  · subst hiq1
    refine Or.inr (Or.inr (Or.inr (Or.inl ⟨rfl, ind,
      ⟨?_, hse1.trans hd, hi, by omega, hbuf0.symm, hbuf0, hq⟩, ?_⟩)))
    · show (setQBegin qs 1 ind).q1.begin = some ind
      simp [setQBegin]
    · obtain ⟨bb, ee, hh1, hh2, hh3, hh4, hh5, hh6, hh7, hh8⟩ := hc
      exact ⟨bb, ee, (show (setQBegin qs 1 ind).q0.begin = qs.q0.begin from by
          simp [setQBegin]).trans hh1,
        (show (setQBegin qs 1 ind).q0.end_ = qs.q0.end_ from hse0).trans hh2,
        hh3, hh4, hh5, hh6, hh7, hh8⟩
  · subst hiq1
    obtain ⟨-, hend1, -, hb1i, -, -, -⟩ := hp
    refine Or.inr (Or.inr (Or.inr (Or.inl ⟨rfl, ind,
      ⟨?_, hse1.trans hend1, hi, by omega, hbuf0.symm, hbuf0, hq⟩, ?_⟩)))
    · show (setQBegin qs 1 ind).q1.begin = some ind
      simp [setQBegin]
    · obtain ⟨bb, ee, hh1, hh2, hh3, hh4, hh5, hh6, hh7, hh8⟩ := hc
      refine ⟨bb, ee, (show (setQBegin qs 1 ind).q0.begin = qs.q0.begin from by
          simp [setQBegin]).trans hh1,
        (show (setQBegin qs 1 ind).q0.end_ = qs.q0.end_ from hse0).trans hh2,
        hh3, hh4, by omega, hh6, hh7, hh8⟩
  · exact absurd hiq2 (by omega)

theorem skip_zeros_ge (f : Nat) (buf : Int → Nat) (ind limit : Int) :
    ind ≤ skip_zeros f buf ind limit := by
  induction f generalizing ind with
  | zero => simp [skip_zeros]
  | succ f ih =>
      unfold skip_zeros
      split
      · exact le_trans (by omega) (ih (ind + 1))
      · exact le_rfl

theorem scan_inv (buf0 : Int → Nat) (limit : Int) :
    ∀ (fuel : Nat) (buf : Int → Nat) (qs : Quotes) (ind : Int) (iq quote : Nat),
      QInv buf0 buf qs iq quote ind →
      ∀ st, st = split_token_scan fuel buf qs limit ind iq quote →
      (st.failed = true → Approx buf0 (restore st.buf st.qs).1) ∧
      (st.failed = false → QInv buf0 st.buf st.qs st.iq st.quote st.ind) := by
  intro fuel
  induction fuel with
  | zero =>
      intro buf qs ind iq quote h st hst
      subst hst
      exact ⟨(fun hf => by cases hf), (fun _ => h)⟩
  | succ fuel ih =>
      intro buf qs ind iq quote h st hst
      unfold split_token_scan at hst
      by_cases h1 : ind < limit
      · rw [if_pos h1] at hst
        by_cases h2 : buf ind = 0
        · rw [if_pos h2] at hst
          by_cases h3 : quote = 0
          · rw [if_pos h3] at hst
            subst hst
            exact ⟨(fun hf => by cases hf), (fun _ => h)⟩
          · rw [if_neg h3] at hst
            exact ih _ _ _ _ _ (QInv_step_space buf0 buf qs iq quote ind h h2 h3) st hst
        · rw [if_neg h2] at hst
          by_cases h4 : buf ind = quote
          · rw [if_pos h4] at hst
            by_cases h5 : buf (ind + 1) = 0
            · rw [if_neg (not_not_intro h5)] at hst
              subst hst
              refine ⟨(fun hf => by cases hf), (fun _ => ?_)⟩
              exact QInv_step_close buf0 buf qs iq quote ind h h2 h4
            · rw [if_pos h5] at hst
              subst hst
              refine ⟨(fun _ => ?_), (fun hf => by cases hf)⟩
              show Approx buf0 (restore (restore buf qs).1 (restore buf qs).2).1
              rw [restore_none (restore buf qs).1 (restore buf qs).2 (restore_clears buf qs)]
              exact restore_approx buf0 buf qs iq quote ind h
          · rw [if_neg h4] at hst
            exact ih _ _ _ _ _
              (QInv_mono buf0 buf qs iq quote ind (ind + 1) (by omega) h) st hst
      · rw [if_neg h1] at hst
        subst hst
        exact ⟨(fun hf => by cases hf), (fun _ => h)⟩

theorem split_loop_inv (buf0 : Int → Nat) (limit : Int) :
    ∀ (fuel : Nat) (buf : Int → Nat) (qs : Quotes) (ind i : Int) (iq quote : Nat)
      (tkn : List Int),
      QInv buf0 buf qs iq quote ind →
      ∀ r, r = split_loop fuel buf qs limit ind i iq quote tkn →
      Approx buf0 (restore r.buf r.qs).1 := by
  intro fuel
  induction fuel with
  | zero =>
      intro buf qs ind i iq quote tkn h r hr
      subst hr
      exact restore_approx buf0 buf qs iq quote ind h
  | succ fuel ih =>
      intro buf qs ind i iq quote tkn h r hr
      simp only [split_loop] at hr
      generalize hS : skip_zeros (limit.toNat + 1) buf ind limit = S at hr
      have hge : ind ≤ S := by rw [← hS]; exact skip_zeros_ge _ _ _ _
      have hmono : QInv buf0 buf qs iq quote S :=
        QInv_mono buf0 buf qs iq quote ind S hge h
      by_cases hL : S < limit
      · rw [if_neg (not_not_intro hL)] at hr
        by_cases hQF : (buf S = 39 ∨ buf S = 34) ∧ iq ≥ QUOTED_TOKEN_NMB
        · rw [if_pos hQF] at hr
          subst hr
          show Approx buf0 (restore (restore buf qs).1 (restore buf qs).2).1
          rw [restore_none (restore buf qs).1 (restore buf qs).2 (restore_clears buf qs)]
          exact restore_approx buf0 buf qs iq quote ind h
        · rw [if_neg hQF] at hr
          by_cases hQ : buf S = 39 ∨ buf S = 34
          · rw [if_pos hQ, if_pos hQ, if_pos hQ] at hr
            have hiq2 : iq < 2 := by
              have h2 : ¬ iq ≥ QUOTED_TOKEN_NMB := fun hge2 => hQF ⟨hQ, hge2⟩
              have h2b : ¬ iq ≥ 2 := h2
              omega
            have hOpen : QInv buf0 buf (setQBegin qs iq S) iq (buf S) (S + 1) :=
              QInv_step_open buf0 buf qs iq quote S hmono hQ hiq2
            by_cases hTC : i + 1 ≥ (CMD_TOKEN_NMB : Int)
            · rw [if_pos hTC] at hr
              subst hr
              show Approx buf0 (restore (restore buf (setQBegin qs iq S)).1
                (restore buf (setQBegin qs iq S)).2).1
              rw [restore_none _ _ (restore_clears buf (setQBegin qs iq S))]
              exact restore_approx buf0 buf (setQBegin qs iq S) iq (buf S) (S + 1) hOpen
            · rw [if_neg hTC] at hr
              generalize hST : split_token_scan (limit.toNat + 1) buf (setQBegin qs iq S)
                limit (S + 1) iq (buf S) = st at hr
              obtain ⟨hfail, hok⟩ := scan_inv buf0 limit (limit.toNat + 1) buf
                (setQBegin qs iq S) (S + 1) iq (buf S) hOpen st hST.symm
              by_cases hF : st.failed = true
              · rw [if_pos hF] at hr
                subst hr
                exact hfail hF
              · have hF2 : st.failed = false := by
                  cases hfb : st.failed
                  · rfl
                  · exact absurd hfb hF
                have hQI := hok hF2
                rw [if_neg hF] at hr
                by_cases hL2 : st.ind < limit
                · rw [if_neg (not_not_intro hL2)] at hr
                  exact ih st.buf st.qs st.ind (i + 1) st.iq st.quote _ hQI r hr
                · rw [if_pos hL2] at hr
                  by_cases hQ0 : st.quote = 0
                  · rw [if_neg (not_not_intro hQ0)] at hr
                    subst hr
                    exact restore_approx buf0 st.buf st.qs st.iq st.quote st.ind hQI
                  · rw [if_pos hQ0] at hr
                    subst hr
                    show Approx buf0 (restore (restore st.buf st.qs).1
                      (restore st.buf st.qs).2).1
                    rw [restore_none _ _ (restore_clears st.buf st.qs)]
                    exact restore_approx buf0 st.buf st.qs st.iq st.quote st.ind hQI
          · rw [if_neg hQ, if_neg hQ, if_neg hQ] at hr
            by_cases hTC : i + 1 ≥ (CMD_TOKEN_NMB : Int)
            · rw [if_pos hTC] at hr
              subst hr
              show Approx buf0 (restore (restore buf qs).1 (restore buf qs).2).1
              rw [restore_none _ _ (restore_clears buf qs)]
              exact restore_approx buf0 buf qs iq quote ind h
            · rw [if_neg hTC] at hr
              generalize hST : split_token_scan (limit.toNat + 1) buf qs
                limit S iq quote = st at hr
              obtain ⟨hfail, hok⟩ := scan_inv buf0 limit (limit.toNat + 1) buf
                qs S iq quote hmono st hST.symm
              by_cases hF : st.failed = true
              · rw [if_pos hF] at hr
                subst hr
                exact hfail hF
              · have hF2 : st.failed = false := by
                  cases hfb : st.failed
                  · rfl
                  · exact absurd hfb hF
                have hQI := hok hF2
                rw [if_neg hF] at hr
                by_cases hL2 : st.ind < limit
                · rw [if_neg (not_not_intro hL2)] at hr
                  exact ih st.buf st.qs st.ind (i + 1) st.iq st.quote _ hQI r hr
                · rw [if_pos hL2] at hr
                  by_cases hQ0 : st.quote = 0
                  · rw [if_neg (not_not_intro hQ0)] at hr
                    subst hr
                    exact restore_approx buf0 st.buf st.qs st.iq st.quote st.ind hQI
                  · rw [if_pos hQ0] at hr
                    subst hr
                    show Approx buf0 (restore (restore st.buf st.qs).1
                      (restore st.buf st.qs).2).1
                    rw [restore_none _ _ (restore_clears st.buf st.qs)]
                    exact restore_approx buf0 st.buf st.qs st.iq st.quote st.ind hQI
      · rw [if_pos hL] at hr
        subst hr
        exact restore_approx buf0 buf qs iq quote ind h

/-- **C3** (amended)  After `split` followed by `restore`, every byte of
`cmdline` either equals its value before tokenization, or it was a 0x00
separator lying inside a quoted span, which `split` rewrote to a 0x20 space
and `restore` does not undo: the round-trip is bytewise identity except for
those in-quote 0x00 → 0x20 rewrites. -/
theorem C3_roundtrip_upto_quoted_zeros (buf : Int → Nat) (limit : Int) (j : Int) :
    (restore (split buf limit).buf (split buf limit).qs).1 j = buf j ∨
      (buf j = 0 ∧ (restore (split buf limit).buf (split buf limit).qs).1 j = 32) := by
  have h0 : QInv buf buf quotesClear 0 0 0 :=
    ⟨le_rfl, (fun k => Or.inl rfl), Or.inl ⟨rfl, rfl, rfl, rfl⟩⟩
  exact split_loop_inv buf limit (limit.toNat + 1) buf quotesClear 0 0 0 0 [] h0
    (split buf limit) rfl j

theorem entSize_nil : entSize [] = 0 := rfl

theorem entSize_cons (pl : List Nat) (es : List (List Nat)) :
    entSize (pl :: es) = pl.length + 1 + entSize es := rfl

theorem entSize_append_one (es : List (List Nat)) (pl : List Nat) :
    entSize (es ++ [pl]) = entSize es + (pl.length + 1) := by
  induction es with
  | nil => simp [entSize]
  | cons e tl ih => rw [List.cons_append, entSize_cons, entSize_cons, ih]; omega

theorem layout_congr (buf : Nat → Nat) :
    ∀ (es : List (List Nat)) (p q : Nat),
      p % RING_HISTORY_LEN = q % RING_HISTORY_LEN → layoutAt buf p es → layoutAt buf q es := by
  intro es
  induction es with
  | nil =>
      intro p q hpq h
      show buf (q % RING_HISTORY_LEN) = 0
      rw [← hpq]
      exact h
  | cons pl tl ih =>
      intro p q hpq h
      obtain ⟨hh, h1, h2, hpay, hrest⟩ := h
      have hpq64 : p % 64 = q % 64 := hpq
      refine ⟨by rw [← hpq]; exact hh, h1, h2, ?_, ?_⟩
      · intro k hk
        rw [show (q + 1 + k) % RING_HISTORY_LEN = (p + 1 + k) % RING_HISTORY_LEN from by
          show (q + 1 + k) % 64 = (p + 1 + k) % 64; omega]
        exact hpay k hk
      · exact ih (p + pl.length + 1) (q + pl.length + 1)
          (by show (p + pl.length + 1) % 64 = (q + pl.length + 1) % 64; omega) hrest

theorem layout_suffix (buf : Nat → Nat) :
    ∀ (es es2 : List (List Nat)) (p : Nat),
      layoutAt buf p (es ++ es2) → layoutAt buf (p + entSize es) es2 := by
  intro es
  induction es with
  | nil =>
      intro es2 p h
      rw [entSize_nil, Nat.add_zero]
      exact h
  | cons e tl ih =>
      intro es2 p h
      obtain ⟨-, -, -, -, hrest⟩ := h
      have := ih es2 (p + e.length + 1) hrest
      rw [show p + entSize (e :: tl) = p + e.length + 1 + entSize tl from by
        rw [entSize_cons]; omega]
      exact this

theorem layout_len_le (buf : Nat → Nat) :
    ∀ (es : List (List Nat)) (p : Nat),
      layoutAt buf p es → 2 * es.length ≤ entSize es := by
  intro es
  induction es with
  | nil => intro p _; simp [entSize_nil]
  | cons e tl ih =>
      intro p h
      obtain ⟨-, h1, -, -, hrest⟩ := h
      have := ih (p + e.length + 1) hrest
      rw [entSize_cons]
      simp only [List.length_cons]
      omega

theorem layout_head_pos (buf : Nat → Nat) (es : List (List Nat)) (pl : List Nat) (p : Nat)
    (h : layoutAt buf p (pl :: es)) : 1 ≤ buf (p % RING_HISTORY_LEN) := by
  obtain ⟨hh, h1, -, -, -⟩ := h
  rw [hh]
  exact h1

theorem layout_snoc (buf buf2 : Nat → Nat) (pl : List Nat) :
    ∀ (es : List (List Nat)) (p : Nat),
      layoutAt buf p es →
      (∀ o, o < entSize es →
        buf2 ((p + o) % RING_HISTORY_LEN) = buf ((p + o) % RING_HISTORY_LEN)) →
      buf2 ((p + entSize es) % RING_HISTORY_LEN) = pl.length →
      1 ≤ pl.length → pl.length ≤ RING_HISTORY_LEN - 2 →
      (∀ k, k < pl.length →
        buf2 ((p + entSize es + 1 + k) % RING_HISTORY_LEN) = pl.getD k 0) →
      buf2 ((p + entSize es + pl.length + 1) % RING_HISTORY_LEN) = 0 →
      layoutAt buf2 p (es ++ [pl]) := by
  intro es
  induction es with
  | nil =>
      intro p hlay hagree hhdr hp1 hp2 hpay hsent
      rw [entSize_nil, Nat.add_zero] at hhdr hsent
      refine ⟨hhdr, hp1, hp2, ?_, ?_⟩
      · intro k hk
        have := hpay k hk
        rw [entSize_nil, Nat.add_zero] at this
        exact this
      · show buf2 ((p + pl.length + 1) % RING_HISTORY_LEN) = 0
        exact hsent
  | cons e tl ih =>
      intro p hlay hagree hhdr hp1 hp2 hpay hsent
      obtain ⟨hh, h1e, h2e, hpaye, hrest⟩ := hlay
      have hent : entSize (e :: tl) = e.length + 1 + entSize tl := entSize_cons e tl
      refine ⟨?_, h1e, h2e, ?_, ?_⟩
      · have := hagree 0 (by omega)
        rw [Nat.add_zero] at this
        rw [this]
        exact hh
      · intro k hk
        have := hagree (1 + k) (by omega)
        rw [show p + (1 + k) = p + 1 + k from by omega] at this
        rw [this]
        exact hpaye k hk
      · refine ih (p + e.length + 1) hrest ?_ ?_ hp1 hp2 ?_ ?_
        · intro o ho
          have := hagree (e.length + 1 + o) (by omega)
          rw [show p + (e.length + 1 + o) = p + e.length + 1 + o from by omega] at this
          exact this
        · rw [show p + e.length + 1 + entSize tl = p + entSize (e :: tl) from by omega]
          exact hhdr
        · intro k hk
          rw [show p + e.length + 1 + entSize tl + 1 + k = p + entSize (e :: tl) + 1 + k
            from by omega]
          exact hpay k hk
        · rw [show p + e.length + 1 + entSize tl + pl.length + 1 =
            p + entSize (e :: tl) + pl.length + 1 from by omega]
          exact hsent

theorem space_true (r : RingHist) (es : List (List Nat)) (len : Nat)
    (hwf : HistWF r es) (hlen : len ≤ RING_HISTORY_LEN - 2)
    (hs : hist_is_space_for_new r len = true) :
    entSize es + len + 1 ≤ RING_HISTORY_LEN - 1 := by
  obtain ⟨hb, hend, hsz, hlay⟩ := hwf
  have hb64 : r.begin < 64 := hb
  have hsz64 : entSize es ≤ 63 := hsz
  have hlen62 : len ≤ 62 := hlen
  cases es with
  | nil =>
      rw [entSize_nil]
      show 0 + len + 1 ≤ 63
      omega
  | cons pl tl =>
      have hne : r.buf r.begin ≠ 0 := by
        have := layout_head_pos r.buf tl pl r.begin hlay
        rw [Nat.mod_eq_of_lt hb] at this
        omega
      have hend64 : r.end_ = (r.begin + entSize (pl :: tl)) % 64 := hend
      unfold hist_is_space_for_new at hs
      rw [if_neg hne] at hs
      show entSize (pl :: tl) + len + 1 ≤ 63
      by_cases hge : r.end_ ≥ r.begin
      · rw [if_pos hge] at hs
        have := of_decide_eq_true hs
        have h2 : (64 : Int) - r.end_ + r.begin - 1 > len := this
        omega
      · rw [if_neg hge] at hs
        have := of_decide_eq_true hs
        have h2 : (r.begin : Int) - r.end_ - 1 > len := this
        omega

theorem space_false_nonempty (r : RingHist) (es : List (List Nat))
    (hwf : HistWF r es) (len : Nat)
    (hs : hist_is_space_for_new r len = false) : es ≠ [] := by
  intro he
  subst he
  obtain ⟨hb, -, -, hlay⟩ := hwf
  have h0 : r.buf r.begin = 0 := by
    have : r.buf (r.begin % RING_HISTORY_LEN) = 0 := hlay
    rwa [Nat.mod_eq_of_lt hb] at this
  unfold hist_is_space_for_new at hs
  rw [if_pos h0] at hs
  cases hs

theorem erase_wf (r : RingHist) (pl : List Nat) (es : List (List Nat))
    (hwf : HistWF r (pl :: es)) : HistWF (hist_erase_older r) es := by
  obtain ⟨hb, hend, hsz, hlay⟩ := hwf
  have hb64 : r.begin < 64 := hb
  have hsz64 : entSize (pl :: es) ≤ 63 := hsz
  have hent : entSize (pl :: es) = pl.length + 1 + entSize es := entSize_cons pl es
  obtain ⟨hh, h1e, h2e, hpay, hrest⟩ := hlay
  have hh2 : r.buf r.begin = pl.length := by
    rwa [Nat.mod_eq_of_lt hb] at hh
  have hp62 : pl.length ≤ 62 := h2e
  have hwrap : wrapHist (r.begin + r.buf r.begin + 1) =
      (r.begin + pl.length + 1) % RING_HISTORY_LEN := by
    rw [hh2]
    exact wrapHist_eq_mod _ (by show _ < 128; omega)
  refine ⟨?_, ?_, ?_, ?_⟩
  · show wrapHist (r.begin + r.buf r.begin + 1) < RING_HISTORY_LEN
    rw [hwrap]
    exact Nat.mod_lt _ (by show 0 < 64; omega)
  · show r.end_ = (wrapHist (r.begin + r.buf r.begin + 1) + entSize es) % RING_HISTORY_LEN
    rw [hwrap, hend]
    show (r.begin + entSize (pl :: es)) % 64 =
      ((r.begin + pl.length + 1) % 64 + entSize es) % 64
    omega
  · show entSize es ≤ RING_HISTORY_LEN - 1
    show entSize es ≤ 63
    omega
  · show layoutAt r.buf (wrapHist (r.begin + r.buf r.begin + 1)) es
    rw [hwrap]
    refine layout_congr r.buf es (r.begin + pl.length + 1) _ ?_ hrest
    show (r.begin + pl.length + 1) % 64 = (r.begin + pl.length + 1) % 64 % 64
    omega

theorem evict_wf (len : Nat) (hlen : len ≤ RING_HISTORY_LEN - 2) :
    ∀ (fuel : Nat) (r : RingHist) (es : List (List Nat)),
      HistWF r es → es.length < fuel →
      ∃ es1, HistWF (hist_evict fuel r len) es1 ∧
        entSize es1 + len + 1 ≤ RING_HISTORY_LEN - 1 := by
  intro fuel
  induction fuel with
  | zero =>
      intro r es hwf hlt
      exact absurd hlt (by omega)
  | succ fuel ih =>
      intro r es hwf hlt
      unfold hist_evict
      by_cases hs : hist_is_space_for_new r len = true
      · rw [if_pos hs]
        exact ⟨es, hwf, space_true r es len hwf hlen hs⟩
      · have hs2 : hist_is_space_for_new r len = false := by
          cases hb : hist_is_space_for_new r len
          · rfl
          · exact absurd hb hs
        rw [if_neg hs]
        cases es with
        | nil => exact absurd rfl (space_false_nonempty r [] hwf len hs2)
        | cons pl tl =>
            have hwf2 := erase_wf r pl tl hwf
            have hlt2 : tl.length < fuel := by
              simp only [List.length_cons] at hlt
              omega
            exact ih (hist_erase_older r) tl hwf2 hlt2

theorem count_layout (buf : Nat → Nat) :
    ∀ (es : List (List Nat)) (fuel p : Nat),
      layoutAt buf p es → es.length < fuel →
      hist_count fuel buf (p % RING_HISTORY_LEN) = es.length := by
  intro es
  induction es with
  | nil =>
      intro fuel p hlay hlt
      cases fuel with
      | zero => exact absurd hlt (by omega)
      | succ fuel =>
          unfold hist_count
          rw [if_pos (show buf (p % RING_HISTORY_LEN) = 0 from hlay)]
          rfl
  | cons pl tl ih =>
      intro fuel p hlay hlt
      obtain ⟨hh, h1e, h2e, hpay, hrest⟩ := hlay
      cases fuel with
      | zero => exact absurd hlt (by omega)
      | succ fuel =>
          unfold hist_count
          rw [if_neg (show ¬ buf (p % RING_HISTORY_LEN) = 0 from by rw [hh]; omega)]
          have hmod : p % RING_HISTORY_LEN < 64 := Nat.mod_lt _ (by show 0 < 64; omega)
          have hp62 : pl.length ≤ 62 := h2e
          have hwrap : wrapHist (p % RING_HISTORY_LEN + buf (p % RING_HISTORY_LEN) + 1) =
              (p + pl.length + 1) % RING_HISTORY_LEN := by
            rw [hh]
            rw [wrapHist_eq_mod _ (by show _ < 128; omega)]
            show (p % 64 + pl.length + 1) % 64 = (p + pl.length + 1) % 64
            omega
          rw [hwrap]
          have hlt2 : tl.length < fuel := by
            simp only [List.length_cons] at hlt
            omega
          rw [ih fuel (p + pl.length + 1) hrest hlt2]
          simp

theorem seek_last (buf : Nat → Nat) (pl : List Nat) :
    ∀ (es : List (List Nat)) (fuel p : Nat) (cnt j cur : Int),
      layoutAt buf p (es ++ [pl]) → es.length ≤ fuel →
      cnt - j - 1 = es.length + cur →
      hist_seek fuel buf (p % RING_HISTORY_LEN) cnt j cur 1 =
        (p + entSize es) % RING_HISTORY_LEN := by
  intro es
  induction es with
  | nil =>
      intro fuel p cnt j cur hlay hle hstop
      rw [entSize_nil, Nat.add_zero]
      cases fuel with
      | zero => rfl
      | succ fuel =>
          unfold hist_seek
          rw [if_neg (show ¬ (buf (p % RING_HISTORY_LEN) ≠ 0 ∧ cnt - j - 1 ≠ cur) from by
            intro hcon
            exact hcon.2 (by simp only [List.length_nil, Nat.cast_zero] at hstop; omega))]
  | cons e tl ih =>
      intro fuel p cnt j cur hlay hle hstop
      obtain ⟨hh, h1e, h2e, hpay, hrest⟩ := hlay
      cases fuel with
      | zero =>
          exact absurd hle (by simp only [List.length_cons]; omega)
      | succ fuel =>
          unfold hist_seek
          rw [if_pos (show buf (p % RING_HISTORY_LEN) ≠ 0 ∧ cnt - j - 1 ≠ cur from by
            constructor
            · rw [hh]; omega
            · simp only [List.length_cons] at hstop
              push_cast at hstop
              omega)]
          have hmod : p % RING_HISTORY_LEN < 64 := Nat.mod_lt _ (by show 0 < 64; omega)
          have hp62 : e.length ≤ 62 := h2e
          have hwrap : wrapHist (p % RING_HISTORY_LEN + buf (p % RING_HISTORY_LEN) + 1) =
              (p + e.length + 1) % RING_HISTORY_LEN := by
            rw [hh]
            rw [wrapHist_eq_mod _ (by show _ < 128; omega)]
            show (p % 64 + e.length + 1) % 64 = (p + e.length + 1) % 64
            omega
          rw [hwrap]
          have hle2 : tl.length ≤ fuel := by
            simp only [List.length_cons] at hle
            omega
          have hstop2 : cnt - (j + 1) - 1 = tl.length + cur := by
            simp only [List.length_cons] at hstop
            push_cast at hstop ⊢
            omega
          rw [ih fuel (p + e.length + 1) cnt (j + 1) cur hrest hle2 hstop2]
          show (p + e.length + 1 + entSize tl) % 64 = (p + entSize (e :: tl)) % 64
          rw [entSize_cons]
          omega

theorem copy_out_at (buf : Nat → Nat) (header : Nat) (pl : List Nat) (line0 : Int → Nat)
    (hh64 : header < RING_HISTORY_LEN) (hlen : buf header = pl.length)
    (hple : pl.length ≤ RING_HISTORY_LEN - 2)
    (hpay : ∀ k, k < pl.length → buf ((header + 1 + k) % RING_HISTORY_LEN) = pl.getD k 0)
    (k : Nat) (hk : k < pl.length) :
    hist_copy_out buf header line0 (k : Int) = pl.getD k 0 := by
  have hh2 : header < 64 := hh64
  have hp62 : pl.length ≤ 62 := hple
  simp only [hist_copy_out]
  by_cases hbr : buf header + header < RING_HISTORY_LEN
  · rw [if_pos hbr]
    have hbr2 : pl.length + header < 64 := by rw [hlen] at hbr; exact hbr
    rw [if_pos (show (0 : Int) ≤ (k : Int) ∧ (k : Int) < ((buf header : Nat) : Int) from by
      rw [hlen]; omega)]
    rw [show ((k : Int)).toNat = k from by omega]
    have := hpay k hk
    rwa [Nat.mod_eq_of_lt (by omega)] at this
  · rw [if_neg hbr]
    have hbr2 : ¬ pl.length + header < 64 := by rw [hlen] at hbr; exact hbr
    by_cases hks : k < RING_HISTORY_LEN - header - 1
    · rw [if_pos (show (0 : Int) ≤ (k : Int) ∧
          (k : Int) < ((RING_HISTORY_LEN - header - 1 : Nat) : Int) from by
        constructor
        · omega
        · show (k : Int) < ((64 - header - 1 : Nat) : Int)
          have hks2 : k < 64 - header - 1 := hks
          omega)]
      rw [show ((k : Int)).toNat = k from by omega]
      have hks2 : k < 64 - header - 1 := hks
      have := hpay k hk
      rwa [Nat.mod_eq_of_lt (by omega)] at this
    · have hks2 : ¬ k < 64 - header - 1 := hks
      rw [if_neg (show ¬ ((0 : Int) ≤ (k : Int) ∧
          (k : Int) < ((RING_HISTORY_LEN - header - 1 : Nat) : Int)) from by
        show ¬ ((0 : Int) ≤ (k : Int) ∧ (k : Int) < ((64 - header - 1 : Nat) : Int))
        omega)]
      rw [if_pos (show ((RING_HISTORY_LEN - header - 1 : Nat) : Int) ≤ (k : Int) ∧
          (k : Int) < ((buf header : Nat) : Int) from by
        rw [hlen]
        show ((64 - header - 1 : Nat) : Int) ≤ (k : Int) ∧ (k : Int) < ((pl.length : Nat) : Int)
        omega)]
      rw [show ((k : Int)).toNat - (RING_HISTORY_LEN - header - 1) =
          (header + 1 + k) % RING_HISTORY_LEN from by
        show ((k : Int)).toNat - (64 - header - 1) = (header + 1 + k) % 64
        omega]
      exact hpay k hk

theorem save_keep_lo (bufc buf1 : Nat → Nat) (b1 E1 sz1 o : Nat) (line : List Nat)
    (hb : b1 < RING_HISTORY_LEN) (hE : E1 = (b1 + sz1) % RING_HISTORY_LEN)
    (hsz : sz1 + line.length + 1 ≤ RING_HISTORY_LEN - 1) (ho : o < sz1)
    (hbr : (line.length : Int) < (RING_HISTORY_LEN : Int) - E1 - 1)
    (hcq : bufc ((b1 + o) % RING_HISTORY_LEN) = buf1 ((b1 + o) % RING_HISTORY_LEN)) :
    memcpyN bufc (E1 + 1) line ((b1 + o) % RING_HISTORY_LEN) =
      buf1 ((b1 + o) % RING_HISTORY_LEN) := by
  have hb64 : b1 < 64 := hb
  have hE64 : E1 = (b1 + sz1) % 64 := hE
  have hsz64 : sz1 + line.length + 1 ≤ 63 := hsz
  have hbr2 : (line.length : Int) < (64 : Int) - (E1 : Int) - 1 := hbr
  have hbr3 : line.length + E1 + 1 < 64 := by clear hE hE64 hbr hcq; push_cast at hbr2; omega
  simp only [memcpyN]
  rw [if_neg (show ¬ (E1 + 1 ≤ (b1 + o) % RING_HISTORY_LEN ∧
      (b1 + o) % RING_HISTORY_LEN < E1 + 1 + line.length) from by
    clear hE hbr hbr2 hcq
    show ¬ (E1 + 1 ≤ (b1 + o) % 64 ∧ (b1 + o) % 64 < E1 + 1 + line.length)
    omega)]
  exact hcq

theorem save_keep_wrap (bufc buf1 : Nat → Nat) (b1 E1 sz1 o : Nat) (line : List Nat)
    (hb : b1 < RING_HISTORY_LEN) (hE : E1 = (b1 + sz1) % RING_HISTORY_LEN)
    (hsz : sz1 + line.length + 1 ≤ RING_HISTORY_LEN - 1) (ho : o < sz1)
    (hcq : bufc ((b1 + o) % RING_HISTORY_LEN) = buf1 ((b1 + o) % RING_HISTORY_LEN)) :
    memcpyN (memcpyN bufc (E1 + 1) (line.take (RING_HISTORY_LEN - E1 - 1))) 0
      (line.drop (RING_HISTORY_LEN - E1 - 1)) ((b1 + o) % RING_HISTORY_LEN) =
      buf1 ((b1 + o) % RING_HISTORY_LEN) := by
  have hb64 : b1 < 64 := hb
  have hE64 : E1 = (b1 + sz1) % 64 := hE
  have hsz64 : sz1 + line.length + 1 ≤ 63 := hsz
  have hr2 : ¬ (0 ≤ (b1 + o) % 64 ∧
      (b1 + o) % 64 < 0 + (line.length - (64 - E1 - 1))) ∧
      ¬ (E1 + 1 ≤ (b1 + o) % 64 ∧
      (b1 + o) % 64 < E1 + 1 + min (64 - E1 - 1) line.length) := by
    clear hE hcq
    omega
  simp only [memcpyN, List.length_drop, List.length_take]
  rw [if_neg (show ¬ (0 ≤ (b1 + o) % RING_HISTORY_LEN ∧
      (b1 + o) % RING_HISTORY_LEN < 0 + (line.length - (RING_HISTORY_LEN - E1 - 1)))
    from hr2.1)]
  rw [if_neg (show ¬ (E1 + 1 ≤ (b1 + o) % RING_HISTORY_LEN ∧
      (b1 + o) % RING_HISTORY_LEN < E1 + 1 + min (RING_HISTORY_LEN - E1 - 1) line.length)
    from hr2.2)]
  exact hcq

theorem save_stack_at (bufc buf1 NB : Nat → Nat) (b1 E1 sz1 : Nat) (line : List Nat)
    (hb : b1 < RING_HISTORY_LEN) (hE : E1 = (b1 + sz1) % RING_HISTORY_LEN)
    (h1 : 1 ≤ line.length) (hsz : sz1 + line.length + 1 ≤ RING_HISTORY_LEN - 1)
    (hc : ∀ o, o < sz1 →
      bufc ((b1 + o) % RING_HISTORY_LEN) = buf1 ((b1 + o) % RING_HISTORY_LEN))
    (hNB : NB = bwriteN (bwriteN
        (if (line.length : Int) < (RING_HISTORY_LEN : Int) - E1 - 1 then
          memcpyN bufc (E1 + 1) line
        else memcpyN (memcpyN bufc (E1 + 1) (line.take (RING_HISTORY_LEN - E1 - 1))) 0
          (line.drop (RING_HISTORY_LEN - E1 - 1))) E1 line.length)
        (wrapHist (E1 + line.length + 1)) 0) :
    (∀ o, o < sz1 →
      NB ((b1 + o) % RING_HISTORY_LEN) = buf1 ((b1 + o) % RING_HISTORY_LEN)) ∧
    NB ((b1 + sz1) % RING_HISTORY_LEN) = line.length ∧
    (∀ k, k < line.length →
      NB ((b1 + sz1 + 1 + k) % RING_HISTORY_LEN) = line.getD k 0) ∧
    NB ((b1 + sz1 + line.length + 1) % RING_HISTORY_LEN) = 0 := by
  have hb64 : b1 < 64 := hb
  have hE64 : E1 = (b1 + sz1) % 64 := hE
  have hE2 : E1 < 64 := by clear hE hc; omega
  have hsz64 : sz1 + line.length + 1 ≤ 63 := hsz
  have hp62 : line.length ≤ 62 := by clear hE hE64 hc; omega
  have hwrap : wrapHist (E1 + line.length + 1) = (b1 + sz1 + line.length + 1) % 64 := by
    rw [wrapHist_eq_mod _ (by clear hE hE64 hc; show _ < 128; omega)]
    show (E1 + line.length + 1) % 64 = (b1 + sz1 + line.length + 1) % 64
    clear hE hc
    omega
  subst hNB
  refine ⟨?_, ?_, ?_, ?_⟩
  · intro o ho
    have hq : ¬ (b1 + o) % 64 = (b1 + sz1 + line.length + 1) % 64 ∧
        ¬ (b1 + o) % 64 = E1 := by
      clear hwrap hE hc
      omega
    simp only [bwriteN]
    rw [hwrap]
    rw [if_neg (show ¬ (b1 + o) % RING_HISTORY_LEN =
        (b1 + sz1 + line.length + 1) % 64 from hq.1)]
    rw [if_neg (show ¬ (b1 + o) % RING_HISTORY_LEN = E1 from hq.2)]
    by_cases hbr : (line.length : Int) < (RING_HISTORY_LEN : Int) - E1 - 1
    · rw [if_pos hbr]
      exact save_keep_lo bufc buf1 b1 E1 sz1 o line hb hE hsz ho hbr (hc o ho)
    · rw [if_neg hbr]
      exact save_keep_wrap bufc buf1 b1 E1 sz1 o line hb hE hsz ho (hc o ho)
  · simp only [bwriteN]
    rw [hwrap]
    rw [if_neg (show ¬ (b1 + sz1) % RING_HISTORY_LEN = (b1 + sz1 + line.length + 1) % 64 from by
      clear hwrap hE64 hE hc; show ¬ (b1 + sz1) % 64 = (b1 + sz1 + line.length + 1) % 64; omega)]
    rw [if_pos (show (b1 + sz1) % RING_HISTORY_LEN = E1 from hE.symm)]
  · intro k hk
    have hq3 : ¬ (b1 + sz1 + 1 + k) % 64 = (b1 + sz1 + line.length + 1) % 64 ∧
        ¬ (b1 + sz1 + 1 + k) % 64 = E1 := by
      clear hwrap hE hc
      omega
    simp only [bwriteN]
    rw [hwrap]
    rw [if_neg (show ¬ (b1 + sz1 + 1 + k) % RING_HISTORY_LEN =
        (b1 + sz1 + line.length + 1) % 64 from hq3.1)]
    rw [if_neg (show ¬ (b1 + sz1 + 1 + k) % RING_HISTORY_LEN = E1 from hq3.2)]
    rw [show (b1 + sz1 + 1 + k) % RING_HISTORY_LEN = (E1 + 1 + k) % RING_HISTORY_LEN from by
      clear hwrap hE hc hq3; show (b1 + sz1 + 1 + k) % 64 = (E1 + 1 + k) % 64; omega]
    exact memcpy_ring_at bufc line E1 hE2 (show line.length ≤ RING_HISTORY_LEN - 2 from by
      clear hwrap hE64 hE hc; show line.length ≤ 62; omega) k hk
  · simp only [bwriteN]
    rw [hwrap]
    rw [if_pos (show (b1 + sz1 + line.length + 1) % RING_HISTORY_LEN =
        (b1 + sz1 + line.length + 1) % 64 from rfl)]

theorem hist_save_line_wf (r : RingHist) (es : List (List Nat)) (line : List Nat)
    (hwf : HistWF r es) (h1 : 1 ≤ line.length) (h2 : line.length ≤ RING_HISTORY_LEN - 2) :
    ∃ es1, HistWF (hist_save_line r line) (es1 ++ [line]) ∧
      (hist_save_line r line).cur = 0 := by
  have hguard : ¬ line.length > RING_HISTORY_LEN - 2 := by omega
  have hflt : es.length < RING_HISTORY_LEN := by
    have hll := layout_len_le r.buf es r.begin hwf.2.2.2
    have hsz0 : entSize es ≤ 63 := hwf.2.2.1
    show es.length < 64
    omega
  obtain ⟨es1, hwf1, hsz1⟩ := evict_wf line.length h2 RING_HISTORY_LEN r es hwf hflt
  simp only [hist_save_line]
  rw [if_neg hguard]
  generalize hgen : hist_evict RING_HISTORY_LEN r line.length = r1 at hwf1 ⊢
  obtain ⟨buf1, b1, E1, c1⟩ := r1
  obtain ⟨hb, hend, hszle, hlay⟩ := hwf1
  dsimp only at hb hend hlay ⊢
  have hb64 : b1 < 64 := hb
  have hend64 : E1 = (b1 + entSize es1) % 64 := hend
  have hsz63 : entSize es1 + line.length + 1 ≤ 63 := hsz1
  have hcc : ∀ o, o < entSize es1 →
      (if buf1 b1 = 0 then bwriteN buf1 b1 line.length else buf1) ((b1 + o) % RING_HISTORY_LEN)
        = buf1 ((b1 + o) % RING_HISTORY_LEN) := by
    cases es1 with
    | nil =>
        intro o ho
        rw [entSize_nil] at ho
        exact absurd ho (by omega)
    | cons pl tl =>
        have hne : buf1 b1 ≠ 0 := by
          have := layout_head_pos buf1 tl pl b1 hlay
          rw [Nat.mod_eq_of_lt hb] at this
          omega
        intro o ho
        rw [if_neg hne]
  obtain ⟨hagree, hhdr, hpay, hsent⟩ :=
    save_stack_at _ buf1 _ b1 E1 (entSize es1) line hb hend h1 hsz1 hcc rfl
  refine ⟨es1, ⟨hb, ?_, ?_, ?_⟩, rfl⟩
  · show wrapHist (E1 + line.length + 1) =
      (b1 + entSize (es1 ++ [line])) % RING_HISTORY_LEN
    rw [entSize_append_one]
    rw [wrapHist_eq_mod _ (by show _ < 128; omega)]
    show (E1 + line.length + 1) % 64 = (b1 + (entSize es1 + (line.length + 1))) % 64
    omega
  · show entSize (es1 ++ [line]) ≤ RING_HISTORY_LEN - 1
    rw [entSize_append_one]
    show entSize es1 + (line.length + 1) ≤ 63
    omega
  · exact layout_snoc buf1 _ line es1 b1 hlay hagree hhdr h1
      (show line.length ≤ RING_HISTORY_LEN - 2 from h2) hpay hsent

theorem hist_restore_up_gets_last (r : RingHist) (es : List (List Nat)) (line : List Nat)
    (line0 : Int → Nat) (hwf : HistWF r (es ++ [line])) (hcur : r.cur = 0)
    (h1 : 1 ≤ line.length) :
    (hist_restore_line r line0 .up).2.2 = (line.length : Int) ∧
    ∀ k : Nat, k < line.length →
      (hist_restore_line r line0 .up).2.1 (k : Int) = line.getD k 0 := by
  obtain ⟨hb, hend, hszle, hlay⟩ := hwf
  have hb64 : r.begin < 64 := hb
  have hsz63 : entSize (es ++ [line]) ≤ 63 := hszle
  have happ : entSize (es ++ [line]) = entSize es + (line.length + 1) :=
    entSize_append_one es line
  have hlen1 : es.length < 32 := by
    have h2l := layout_len_le r.buf (es ++ [line]) r.begin hlay
    simp only [List.length_append, List.length_singleton] at h2l
    omega
  have hcnt : hist_count RING_HISTORY_LEN r.buf r.begin = (es ++ [line]).length := by
    have := count_layout r.buf (es ++ [line]) RING_HISTORY_LEN r.begin hlay (by
      simp only [List.length_append, List.length_singleton]
      show es.length + 1 < 64
      omega)
    rwa [Nat.mod_eq_of_lt hb] at this
  have hseek : hist_seek RING_HISTORY_LEN r.buf r.begin (((es ++ [line]).length : Nat) : Int)
      0 0 1 = (r.begin + entSize es) % RING_HISTORY_LEN := by
    have := seek_last r.buf line es RING_HISTORY_LEN r.begin
      (((es ++ [line]).length : Nat) : Int) 0 0 hlay
      (by show es.length ≤ 64; omega)
      (by simp only [List.length_append, List.length_singleton]; push_cast; omega)
    rwa [Nat.mod_eq_of_lt hb] at this
  obtain ⟨hh, h1l, h2l, hpayl, -⟩ := layout_suffix r.buf es [line] r.begin hlay
  simp only [hist_restore_line]
  rw [hcnt, hcur]
  rw [if_pos (show (((es ++ [line]).length : Nat) : Int) ≥ 0 from by omega)]
  rw [hseek]
  rw [if_pos (show r.buf ((r.begin + entSize es) % RING_HISTORY_LEN) ≠ 0 from by
    rw [hh]; omega)]
  constructor
  · show ((r.buf ((r.begin + entSize es) % RING_HISTORY_LEN) : Nat) : Int) =
      ((line.length : Nat) : Int)
    rw [hh]
  · intro k hk
    refine copy_out_at r.buf _ line _ (Nat.mod_lt _ (by show 0 < 64; omega)) hh h2l ?_ k hk
    intro k2 hk2
    rw [show ((r.begin + entSize es) % RING_HISTORY_LEN + 1 + k2) % RING_HISTORY_LEN =
        (r.begin + entSize es + 1 + k2) % RING_HISTORY_LEN from by
      show ((r.begin + entSize es) % 64 + 1 + k2) % 64 = (r.begin + entSize es + 1 + k2) % 64
      omega]
    exact hpayl k2 hk2

theorem reachable_wf (r : RingHist) (h : HistReachable r) : ∃ es, HistWF r es := by
  induction h with
  | init =>
      refine ⟨[], ?_, rfl, ?_, rfl⟩
      · show (0 : Nat) < 64
        omega
      · show (0 : Nat) ≤ 63
        omega
  | save r line h hlen ih =>
      obtain ⟨es, hwf⟩ := ih
      by_cases h2 : line.length ≤ RING_HISTORY_LEN - 2
      · obtain ⟨es1, hwf1, -⟩ := hist_save_line_wf r es line hwf hlen h2
        exact ⟨es1 ++ [line], hwf1⟩
      · refine ⟨es, ?_⟩
        have heq : hist_save_line r line = r := by
          unfold hist_save_line
          rw [if_pos (show line.length > RING_HISTORY_LEN - 2 from by omega)]
        rw [heq]
        exact hwf
  | setCur r c h ih =>
      obtain ⟨es, h1, h2, h3, h4⟩ := ih
      exact ⟨es, h1, h2, h3, h4⟩

/-- **C5**  For every reachable history-ring state, saving a line of length
`1 ≤ len ≤ HIST_CAP - 2` with `hist_save_line` and immediately restoring with
direction UP returns `len` and writes the saved payload bytes back, bytewise
equal to the saved line (including when the stored payload wraps around the
ring boundary, which the mod-`HIST_CAP` positions of the proof cover). -/
theorem C5_save_then_up_roundtrip (r : RingHist) (line : List Nat) (line0 : Int → Nat)
    (hr : HistReachable r) (h1 : 1 ≤ line.length)
    (h2 : line.length ≤ RING_HISTORY_LEN - 2) :
    (hist_restore_line (hist_save_line r line) line0 .up).2.2 = (line.length : Int) ∧
    ∀ k : Nat, k < line.length →
      (hist_restore_line (hist_save_line r line) line0 .up).2.1 (k : Int) =
        line.getD k 0 := by
  obtain ⟨es, hwf⟩ := reachable_wf r hr
  obtain ⟨es1, hwf1, hc0⟩ := hist_save_line_wf r es line hwf h1 h2
  exact hist_restore_up_gets_last (hist_save_line r line) es1 line line0 hwf1 hc0 h1

/-- Witness for C5 at a concrete input: saving `a` into the empty ring and
pressing UP returns length 1 and the byte `a`. -/
theorem C5_save_then_up_roundtrip_witness :
    (hist_restore_line (hist_save_line ringEmpty [97]) (fun _ => 0) .up).2.2 =
      (([97].length : Nat) : Int) ∧
    (hist_restore_line (hist_save_line ringEmpty [97]) (fun _ => 0) .up).2.1
      ((0 : Nat) : Int) = [97].getD 0 0 := by
  obtain ⟨ha, hb⟩ := C5_save_then_up_roundtrip ringEmpty [97] (fun _ => 0)
    HistReachable.init (by decide) (by decide)
  exact ⟨ha, hb 0 (by decide)⟩
